import Mathlib

/-!
Verification development for the APA formatter backend (src/backend/main.py).

Strings are modelled as `List Nat` of Unicode code points, matching Python's
character-indexed strings (so span offsets agree with Python's `len`/indices).
Case mappings and character classes are the ASCII ones; all inputs exercised by
the claims are ASCII.  Each definition is a direct translation of the Python
function named in its doc comment.
-/

set_option maxRecDepth 10000

/-- Convert a Lean string literal to the code-point list model. -/
def strOf (s : String) : List Nat := s.data.map (fun c => c.toNat)

/-- Convert a list of Lean string literals. -/
def strsOf (l : List String) : List (List Nat) := l.map strOf

/-- Whitespace test, matching Python's `str.split()` / `strip()` / regex `\s`
on ASCII input (tab, LF, VT, FF, CR, space). -/
def isWsB (c : Nat) : Bool := c == 9 || c == 10 || c == 11 || c == 12 || c == 13 || c == 32

/-- ASCII decimal digit, Python regex `\d` on ASCII input. -/
def isDigitB (c : Nat) : Bool := 48 ≤ c && c ≤ 57

/-- ASCII uppercase letter, regex `[A-Z]`. -/
def isUpperB (c : Nat) : Bool := 65 ≤ c && c ≤ 90

/-- ASCII lowercase letter, regex `[a-z]`. -/
def isLowerB (c : Nat) : Bool := 97 ≤ c && c ≤ 122

/-- ASCII letter, Python `str.isalpha` on ASCII input. -/
def isAlphaB (c : Nat) : Bool := isUpperB c || isLowerB c

/-- Word character, regex `\w` on ASCII input. -/
def isWordB (c : Nat) : Bool := isAlphaB c || isDigitB c || c == 95

/-- Python `str.lower` on one character (ASCII). -/
def toLowerN (c : Nat) : Nat := if 65 ≤ c ∧ c ≤ 90 then c + 32 else c

/-- Python `str.upper` on one character (ASCII). -/
def toUpperN (c : Nat) : Nat := if 97 ≤ c ∧ c ≤ 122 then c - 32 else c

/-- Python `str.lower` on a string. -/
def lowerAll (l : List Nat) : List Nat := l.map toLowerN

/-- Python `str.capitalize`: first character uppercased, the rest lowercased. -/
def capitalizeW : List Nat → List Nat
  | [] => []
  | c :: t => toUpperN c :: t.map toLowerN

/-- Python `str.lstrip()`. -/
def stripL (l : List Nat) : List Nat := l.dropWhile isWsB

/-- Python `str.rstrip()`. -/
def stripR (l : List Nat) : List Nat := (l.reverse.dropWhile isWsB).reverse

/-- Python `str.strip()`. -/
def strip (l : List Nat) : List Nat := stripR (stripL l)

/-- Python `str.rstrip(c)` for a single strip character `c` (for example
`rstrip('.')`, which removes every trailing occurrence). -/
def stripRChar (c : Nat) (l : List Nat) : List Nat :=
  (l.reverse.dropWhile (fun d => d == c)).reverse

/-- Boolean prefix test on code-point lists. -/
def startsWithL : List Nat → List Nat → Bool
  | [], _ => true
  | _ :: _, [] => false
  | a :: as, b :: bs => a == b && startsWithL as bs

/-- Fueled scanner for `splitWs`; every recursive call shortens the list, so
the fuel `l.length + 1` supplied by the wrapper never runs out. -/
def splitWsF : Nat → List Nat → List (List Nat)
  | 0, _ => []
  | _ + 1, [] => []
  | fuel + 1, c :: t =>
    if isWsB c then splitWsF fuel t
    else (c :: t.takeWhile (fun d => !isWsB d)) :: splitWsF fuel (t.dropWhile (fun d => !isWsB d))

/-- Python `str.split()` (split on whitespace runs, dropping empty pieces). -/
def splitWs (l : List Nat) : List (List Nat) := splitWsF (l.length + 1) l

/-- Join a list of words with single spaces, Python `' '.join`. -/
def joinSpace (ws : List (List Nat)) : List Nat := List.intercalate [32] ws

/-- Fueled scanner for `splitOnSub` (fuel never runs out for the wrapper). -/
def splitOnSubGo (sep : List Nat) : Nat → List Nat → List Nat → List (List Nat)
  | 0, _, acc => [acc.reverse]
  | _ + 1, [], acc => [acc.reverse]
  | fuel + 1, c :: t, acc =>
    if startsWithL sep (c :: t) then
      acc.reverse :: splitOnSubGo sep fuel (t.drop (sep.length - 1)) []
    else
      splitOnSubGo sep fuel t (c :: acc)

/-- Python `str.split(sep)` for a non-empty separator. -/
def splitOnSub (s sep : List Nat) : List (List Nat) := splitOnSubGo sep (s.length + 1) s []

/-- Position of the first occurrence of `needle` in `l` (Python `str.find`). -/
def findSubPos (needle : List Nat) : List Nat → Option Nat
  | [] => if needle.isEmpty then some 0 else none
  | c :: t => if startsWithL needle (c :: t) then some 0 else (findSubPos needle t).map (· + 1)

/-- Python `str.index(needle, start)` as an `Option` (None models `ValueError`). -/
def indexOfFrom (s needle : List Nat) (start : Nat) : Option Nat :=
  (findSubPos needle (s.drop start)).map (· + start)

/-- Substring containment test (Python `in` on strings). -/
def containsSub (s needle : List Nat) : Bool := (findSubPos needle s).isSome

/-- Python `str.replace(needle, repl, 1)`: replace the first occurrence only
(an empty needle inserts `repl` at the front, as in Python). -/
def replaceFirst (s needle repl : List Nat) : List Nat :=
  if needle = [] then repl ++ s
  else
    match findSubPos needle s with
    | none => s
    | some p => s.take p ++ repl ++ s.drop (p + needle.length)

/-- Fueled scanner for `replaceAll` (fuel never runs out for the wrapper). -/
def replaceAllGo (needle repl : List Nat) : Nat → List Nat → List Nat
  | 0, l => l
  | _ + 1, [] => []
  | fuel + 1, c :: t =>
    if startsWithL needle (c :: t) then
      repl ++ replaceAllGo needle repl fuel (t.drop (needle.length - 1))
    else
      c :: replaceAllGo needle repl fuel t

/-- Python `str.replace(needle, repl)` (all occurrences) for non-empty needle. -/
def replaceAll (s needle repl : List Nat) : List Nat :=
  if needle = [] then s else replaceAllGo needle repl (s.length + 1) s

/-- Auxiliary state machine for `istitleS` (prevCased, seenCased). -/
def istitleGo : Bool → Bool → List Nat → Bool
  | _, seen, [] => seen
  | prevCased, seen, c :: t =>
    if isUpperB c then (if prevCased then false else istitleGo true true t)
    else if isLowerB c then (if prevCased then istitleGo true seen t else false)
    else istitleGo false seen t

/-- Python `str.istitle` (ASCII: cased characters are the letters). -/
def istitleS (l : List Nat) : Bool := istitleGo false false l

/-- Python `str.isupper`: at least one cased character and no lowercase one. -/
def isupperS (l : List Nat) : Bool := l.any isAlphaB && l.all (fun c => !isLowerB c)

/-- Python `str.isalpha` on a string. -/
def isalphaS (l : List Nat) : Bool := !l.isEmpty && l.all isAlphaB

/-- Small-word list of `title_case` (main.py line 39). -/
def smallWords : List (List Nat) :=
  strsOf [r"and", r"or", r"the", r"of", r"in", r"on", r"for", r"to", r"a", r"an", r"by", r"at", r"with", r"from"]

/-- One non-first word of `title_case`: capitalized unless a small word. -/
def titleSmallWord (w : List Nat) : List Nat := if w ∈ smallWords then w else capitalizeW w

/-- Word processing of `title_case`: first word always capitalized (`i == 0`),
later words capitalized unless in the small-word set (main.py line 41). -/
def titleProcessWords : List (List Nat) → List (List Nat)
  | [] => []
  | w :: rest => capitalizeW w :: rest.map titleSmallWord

/-- Translation of `title_case` (main.py lines 37-41):
lowercase, split on whitespace, capitalize per the small-word rule, join. -/
def title_case (s : List Nat) : List Nat :=
  joinSpace (titleProcessWords (splitWs (lowerAll s)))

/-- Translation of `sentence_case` (main.py lines 44-49): strip, then uppercase
the first character, leaving the rest of the string untouched. -/
def sentence_case (s : List Nat) : List Nat :=
  match strip s with
  | [] => []
  | c :: t => toUpperN c :: t

/-- Scanner for the closing `>` of regex `<.*?>`: index of the first `>` with
no intervening newline (`.` does not match a newline). -/
def findTagClose : List Nat → Option Nat
  | [] => none
  | c :: t => if c == 62 then some 0 else if c == 10 then none else (findTagClose t).map (· + 1)

/-- Fueled scanner for `removeTags` (fuel never runs out for the wrapper). -/
def removeTagsF : Nat → List Nat → List Nat
  | 0, l => l
  | _ + 1, [] => []
  | fuel + 1, c :: t =>
    if c == 60 then
      match findTagClose t with
      | some j => removeTagsF fuel (t.drop (j + 1))
      | none => c :: removeTagsF fuel t
    else c :: removeTagsF fuel t

/-- Translation of `re.sub(r'<.*?>', '', text)` in `detect_heading`. -/
def removeTags (l : List Nat) : List Nat := removeTagsF (l.length + 1) l

/-- Heading vocabulary of `detect_heading` (main.py line 63). -/
def headingsVocab : List (List Nat) :=
  strsOf [r"abstract", r"introduction", r"references", r"discussion", r"conclusion"]

/-- Literal list `["keywords:"]` excluded by `detect_heading` (main.py line 66). -/
def keywordsLit : List Nat := strOf (r"keywords:")

/-- Translation of `detect_heading` (main.py lines 61-68). -/
def detect_heading (text : List Nat) : Nat :=
  let t := strip (removeTags text)
  if lowerAll t ∈ headingsVocab then 1
  else if istitleS t ∧ (splitWs t).length < 10 ∧ lowerAll t ∉ [keywordsLit] then 2
  else 0

/-- One non-first title word in the reference parser (main.py lines 377-383):
kept if fully uppercase, kept if title-cased, otherwise lowercased. -/
def titleSmartWord (w : List Nat) : List Nat :=
  if isupperS w then w else if istitleS w then w else lowerAll w

/-- Loop over `words[1:]` of the reference parser's title processing. -/
def titleRestLoop : List (List Nat) → List (List Nat)
  | [] => []
  | w :: rest => titleSmartWord w :: titleRestLoop rest

/-- Title processing of the reference parser (main.py lines 373-386): split the
extracted title into words, `capitalize` the first, run `titleSmartWord` over
the rest, and rejoin; with no words the text is returned unchanged. -/
def titleWordsProcess (extracted : List Nat) : List Nat :=
  match splitWs extracted with
  | [] => extracted
  | w :: rest => joinSpace (capitalizeW w :: titleRestLoop rest)

/-- Consume exactly `n` ASCII digits (regex `\d{n}`), returning the remainder. -/
def eatDigitsN : Nat → List Nat → Option (List Nat)
  | 0, l => some l
  | _ + 1, [] => none
  | n + 1, d :: t => if isDigitB d then eatDigitsN n t else none

/-- Consume the literal `).` closing a date anchor. -/
def eatParenDot : List Nat → Option (List Nat)
  | 41 :: 46 :: t => some t
  | _ => none

/-- Day part `\d{1,2}` followed by `).` with the regex engine's greedy
backtracking (try two digits, then one). -/
def matchDayDigits (r4 : List Nat) : Option (List Nat) :=
  let k := (r4.takeWhile isDigitB).length
  let try2 := if 2 ≤ k then eatParenDot (r4.drop 2) else none
  let try1 := if 1 ≤ k then eatParenDot (r4.drop 1) else none
  try2 <|> try1

/-- Optional day group `(?:\s+\d{1,2})?` followed by `).` (greedy: the with-day
path is tried first, then the group is dropped). -/
def matchDayOpt (r : List Nat) : Option (List Nat) :=
  let withDay :=
    let wsr := r.takeWhile isWsB
    if wsr.isEmpty then none else matchDayDigits (r.drop wsr.length)
  withDay <|> eatParenDot r

/-- Optional month group `(?:,\s*[A-Za-z]+(?:\s+\d{1,2})?)?` followed by `).`
(greedy: with-month first, then the group is dropped). -/
def matchMonthOpt (r2 : List Nat) : Option (List Nat) :=
  let withMonth :=
    match r2 with
    | 44 :: r3a =>
      let r3 := r3a.dropWhile isWsB
      let alphas := r3.takeWhile isAlphaB
      if alphas.isEmpty then none else matchDayOpt (r3.drop alphas.length)
    | _ => none
  withMonth <|> eatParenDot r2

/-- The `n.d.).` tail of the date anchor's second alternative. -/
def matchNdTail : List Nat → Option (List Nat)
  | 110 :: 46 :: 100 :: 46 :: 41 :: 46 :: t => some t
  | _ => none

/-- Match of the date-anchor core
`\((?:\d{4}(?:,\s*[A-Za-z]+(?:\s+\d{1,2})?)?|n\.d\.)\)\.` at the head of `l`,
returning the remainder after the match (main.py lines 267, 362, 673 share
this core). -/
def matchDateCore (l : List Nat) : Option (List Nat) :=
  match l with
  | 40 :: r1 =>
    let yearBranch :=
      match eatDigitsN 4 r1 with
      | some r2 => matchMonthOpt r2
      | none => none
    yearBranch <|> matchNdTail r1
  | _ => none

/-- Leftmost-match scan for the date-anchor core, returning (position, matched
length). -/
def searchDateCoreGo : Nat → List Nat → Option (Nat × Nat)
  | _, [] => none
  | i, c :: t =>
    match matchDateCore (c :: t) with
    | some rem => some (i, (c :: t).length - rem.length)
    | none => searchDateCoreGo (i + 1) t

/-- Leftmost occurrence of the date-anchor core in `l`. -/
def searchDateCore (l : List Nat) : Option (Nat × Nat) := searchDateCoreGo 0 l

/-- Start position of the author-splitting regex match (main.py line 267): the
core position extended left over the whitespace matched by the leading `\s*`. -/
def authorsRuleStart (ref : List Nat) (corePos : Nat) : Nat :=
  corePos - ((ref.take corePos).reverse.takeWhile isWsB).length

/-- Case-insensitive character comparison against a lowercase reference. -/
def ciIs (c target : Nat) : Bool := toLowerN c == target

/-- Match of `,?\s+et al\.?` (IGNORECASE) at the head, returning the consumed
length (main.py line 279). -/
def matchEtAl (l : List Nat) : Option Nat :=
  let core (r : List Nat) : Option Nat :=
    let wsr := r.takeWhile isWsB
    if wsr.isEmpty then none
    else
      match r.drop wsr.length with
      | c1 :: c2 :: c3 :: c4 :: c5 :: rest =>
        if ciIs c1 101 && ciIs c2 116 && c3 == 32 && ciIs c4 97 && ciIs c5 108 then
          match rest with
          | 46 :: _ => some (wsr.length + 6)
          | _ => some (wsr.length + 5)
        else none
      | _ => none
  let withComma :=
    match l with
    | 44 :: t => (core t).map (· + 1)
    | _ => none
  withComma <|> core l

/-- Replacement string of the `et al` substitution. -/
def etAlRepl : List Nat := strOf (r"; FakeEtAlAuthorPlaceholder")

/-- The placeholder author name produced by the `et al` substitution. -/
def fakePlaceholder : List Nat := strOf (r"FakeEtAlAuthorPlaceholder")

/-- Fueled scanner of
`re.sub(r',?\s+et al\.?', '; FakeEtAlAuthorPlaceholder', s, flags=I)`
(fuel never runs out for the wrapper). -/
def etAlSubGo : Nat → List Nat → List Nat
  | 0, l => l
  | _ + 1, [] => []
  | fuel + 1, c :: t =>
    match matchEtAl (c :: t) with
    | some n => etAlRepl ++ etAlSubGo fuel (t.drop (n - 1))
    | none => c :: etAlSubGo fuel t

/-- The `et al` substitution applied to the author part (main.py line 279). -/
def etAlSub (s : List Nat) : List Nat := etAlSubGo (s.length + 1) s

/-- Organization keywords of `format_individual_author_name` (main.py 178-182). -/
def orgIndicators : List (List Nat) :=
  strsOf [r"university", r"college", r"association", r"society", r"department",
          r"center", r"institute", r"foundation", r"corporation", r"inc",
          r"ltd", r"llc", r"government", r"council", r"bureau", r"office", r"press"]

/-- Group-author heuristic of `format_individual_author_name` (main.py 173-191):
no comma, several words, and an institutional keyword, mostly-capitalized
words, or a long title-cased name. -/
def isLikelyGroupB (s : List Nat) (wordsOrig : List (List Nat)) : Bool :=
  let capWords := (wordsOrig.filter (fun w => istitleS w || isupperS w)).length
  !containsSub s [44] && wordsOrig.length > 1 &&
    (orgIndicators.any (fun ind => containsSub (lowerAll s) ind)
     || (wordsOrig.length > 2 && wordsOrig.length ≤ capWords + 1)
     || (wordsOrig.length > 3 && istitleS s))

/-- Unit loop of the `^([^,]+),\s+((?:[A-Z]\.(?:-[A-Z]\.)?\s*)+)$` regex: parse
`[A-Z]\.` units, each optionally extended by `-[A-Z]\.`, separated by `\s*`,
requiring at least one unit and consumption up to the end of the string. -/
def initUnits : Nat → List Nat → Nat → Bool
  | 0, _, _ => false
  | _ + 1, [], cnt => cnt > 0
  | fuel + 1, u :: rest, cnt =>
    if isUpperB u then
      match rest with
      | 46 :: 45 :: v :: 46 :: z =>
        if isUpperB v then initUnits fuel (z.dropWhile isWsB) (cnt + 1)
        else initUnits fuel ((45 :: v :: 46 :: z).dropWhile isWsB) (cnt + 1)
      | 46 :: y => initUnits fuel (y.dropWhile isWsB) (cnt + 1)
      | _ => false
    else false

/-- Match of the already-formatted-name regex
`^([^,]+),\s+((?:[A-Z]\.(?:-[A-Z]\.)?\s*)+)$` (main.py line 198), returning
(group 1, group 2). -/
def alreadyFormattedMatch (s : List Nat) : Option (List Nat × List Nat) :=
  let g1 := s.takeWhile (fun c => c != 44)
  if g1.isEmpty then none
  else
    match s.drop g1.length with
    | 44 :: r1 =>
      let wsr := r1.takeWhile isWsB
      if wsr.isEmpty then none
      else
        let g2 := r1.drop wsr.length
        if initUnits (g2.length + 1) g2 0 then some (g1, g2) else none
    | _ => none

/-- Fueled scanner for `collapseWsRuns` (fuel never runs out for the wrapper). -/
def collapseWsRunsF : Nat → List Nat → List Nat
  | 0, l => l
  | _ + 1, [] => []
  | fuel + 1, c :: t =>
    if isWsB c then 32 :: collapseWsRunsF fuel (t.dropWhile isWsB)
    else c :: collapseWsRunsF fuel t

/-- Collapse every whitespace run to a single space, `re.sub(r'\s+', ' ', s)`. -/
def collapseWsRuns (l : List Nat) : List Nat := collapseWsRunsF (l.length + 1) l

/-- Initials contributed by one first/middle-name token (main.py 231-248):
hyphenated names become joined hyphen initials, an all-uppercase multi-letter
token becomes one initial per letter, otherwise the first letter. -/
def tokenInitials (tok : List Nat) : List (List Nat) :=
  let cleaned := stripRChar 46 (strip tok)
  if cleaned.isEmpty then []
  else if containsSub cleaned [45] then
    let hp := ((splitOnSub cleaned [45]).map (fun p => stripRChar 46 (strip p))).filter
      (fun h => !h.isEmpty && isAlphaB (h.headD 0))
    let ih := hp.map (fun h => [toUpperN (h.headD 0), 46])
    if ih.isEmpty then [] else [List.intercalate [45] ih]
  else if isupperS cleaned && cleaned.length > 1 && isalphaS cleaned then
    cleaned.map (fun ch => [toUpperN ch, 46])
  else if isAlphaB (cleaned.headD 0) then [[toUpperN (cleaned.headD 0), 46]]
  else []

/-- Join of the per-token initials: `" ".join(filter(None, initials))`. -/
def initialsJoin (entries : List (List Nat)) : List Nat :=
  List.intercalate [32] (entries.filter (fun e => !e.isEmpty))

/-- Translation of `format_individual_author_name` (main.py lines 168-255). -/
def format_individual_author_name (s0 : List Nat) : List Nat :=
  let s := strip s0
  if s.isEmpty then []
  else
    let wordsOrig := splitWs s
    if isLikelyGroupB s wordsOrig then stripRChar 46 s ++ [46]
    else
      match alreadyFormattedMatch s with
      | some g =>
        strip g.1 ++ 44 :: 32 :: stripR (collapseWsRuns (strip g.2))
      | none =>
        let p :=
          if containsSub s [44] then
            match findSubPos [44] s with
            | some i => (strip (s.take i), strip (s.drop (i + 1)))
            | none => (s, [])
          else
            match splitWs s with
            | [] => ([], [])
            | [t] => (t, [])
            | ts => (ts.getLastD [], joinSpace ts.dropLast)
        let lastName := p.1
        let firstMiddle := p.2
        if firstMiddle.isEmpty then stripRChar 46 lastName
        else
          let toks := splitWs (replaceAll firstMiddle [46] [46, 32])
          let joined := initialsJoin (toks.map tokenInitials).flatten
          if joined.isEmpty then stripRChar 46 lastName
          else stripRChar 46 lastName ++ 44 :: 32 :: joined

/-- Separator `", and "`. -/
def commaAndSep : List Nat := strOf (r", and ")

/-- Separator `" and "`. -/
def andSep : List Nat := strOf (r" and ")

/-- Separator `", "`. -/
def commaSpace : List Nat := [44, 32]

/-- Separator `", & "`. -/
def ampSep : List Nat := [44, 32, 38, 32]

/-- Separator `", ..., "`. -/
def ellipsisSep : List Nat := [44, 32, 46, 46, 46, 44, 32]

/-- Split on commas, strip pieces, drop empties (the repeated
`[p.strip() for p in x.split(',') if p.strip()]` idiom). -/
def splitCommaClean (s : List Nat) : List (List Nat) :=
  ((splitOnSub s [44]).map strip).filter (fun x => !x.isEmpty)

/-- Author-candidate splitting (main.py lines 281-320): semicolons first, then
`", and "`, then `" and "`, finally plain commas.  Only the first two pieces of
the `and` splits are used, as in the source. -/
def authorCandidates (temp : List Nat) : List (List Nat) :=
  let sbs := ((splitOnSub temp [59]).map strip).filter (fun x => !x.isEmpty)
  if sbs.length > 1 || (sbs.length == 1 && sbs.headD [] == fakePlaceholder) then sbs
  else
    match splitOnSub temp commaAndSep with
    | p0 :: p1 :: _ => splitCommaClean p0 ++ [strip p1]
    | _ =>
      match splitOnSub temp andSep with
      | q0 :: q1 :: _ => splitCommaClean q0 ++ [strip q1]
      | _ => splitCommaClean temp

/-- Formatted author list (main.py lines 323-324): format each candidate, drop
empties and the `et al` placeholder. -/
def formattedAuthorsOf (authorsPart : List Nat) : List (List Nat) :=
  ((authorCandidates (etAlSub authorsPart)).map format_individual_author_name).filter
    (fun n => !n.isEmpty && n ≠ fakePlaceholder)

/-- Author-join step (main.py lines 326-340): 0 formatted names fall back to
the raw author part; 1 name stands alone; ≥21 names keep the first 19, an
ellipsis, and the last; 2 names are joined with `", & "`; 3-20 names are
comma-joined with `", & "` before the last. -/
def joinAuthors (names : List (List Nat)) (fallback : List Nat) : List Nat :=
  match names with
  | [] => fallback
  | [a] => a
  | a :: b :: rest =>
    if (a :: b :: rest).length ≥ 21 then
      stripRChar 44 (List.intercalate commaSpace ((a :: b :: rest).take 19)) ++ ellipsisSep
        ++ (a :: b :: rest).getLastD []
    else if (a :: b :: rest).length == 2 then
      a ++ ampSep ++ (a :: b :: rest).getLastD []
    else
      stripRChar 44 (List.intercalate commaSpace (a :: b :: rest).dropLast) ++ ampSep
        ++ (a :: b :: rest).getLastD []

/-- Pre-cleaning of the raw reference (main.py lines 259-264): strip, drop the
zero-width characters `​`/`‌` (one `re.sub`) and the directional
marks `‬`/`‫` (two `replace` calls, fused into one filter since all
four are plain single-character deletions), strip again. -/
def preClean (ref : List Nat) : List Nat :=
  strip ((strip ref).filter (fun c => !(c == 8203 || c == 8204 || c == 8236 || c == 8235)))

/-- Author-processing step of the reference parser (main.py lines 266-342). -/
def authorStep (ref : List Nat) : List Nat :=
  match searchDateCore ref with
  | none => ref
  | some pc =>
    let p := authorsRuleStart ref pc.1
    let authorsPart := strip (ref.take p)
    if authorsPart.isEmpty then ref
    else joinAuthors (formattedAuthorsOf authorsPart) authorsPart ++ ref.drop p

/-- Match of `https?://\S+` at the head, returning the consumed length
(greedy: the `s` variant is preferred). -/
def matchUrlAt (l : List Nat) : Option Nat :=
  match l with
  | 104 :: 116 :: 116 :: 112 :: rest =>
    let withS :=
      match rest with
      | 115 :: 58 :: 47 :: 47 :: r2 =>
        let run := r2.takeWhile (fun c => !isWsB c)
        if run.isEmpty then none else some (8 + run.length)
      | _ => none
    let noS :=
      match rest with
      | 58 :: 47 :: 47 :: r2 =>
        let run := r2.takeWhile (fun c => !isWsB c)
        if run.isEmpty then none else some (7 + run.length)
      | _ => none
    withS <|> noS
  | _ => none

/-- Leftmost-match scan of `re.search(r'(https?://\S+)', ref)`. -/
def searchUrlGo : Nat → List Nat → Option (Nat × Nat)
  | _, [] => none
  | i, c :: t =>
    match matchUrlAt (c :: t) with
    | some n => some (i, n)
    | none => searchUrlGo (i + 1) t

/-- URL-extraction step (main.py lines 345-351): record the first URL and
remove every occurrence of it, then strip. -/
def stripUrlStep (ref : List Nat) : List Nat × Option (List Nat) :=
  match searchUrlGo 0 ref with
  | some pn => 
    let url := (ref.drop pn.1).take pn.2
    (strip (replaceAll ref url []), some url)
  | none => (ref, none)

/-- Match of the en-dash pattern `(?<=[,\s(])(\d+)-(\d+)(?=[.\s)]|$)` at the
head of `l`, given the previous character `prev`; returns the two digit runs. -/
def matchEndash (prev : Nat) (l : List Nat) : Option (List Nat × List Nat) :=
  if prev == 44 || isWsB prev || prev == 40 then
    let d1 := l.takeWhile isDigitB
    if d1.isEmpty then none
    else
      match l.drop d1.length with
      | 45 :: r2 =>
        let d2 := r2.takeWhile isDigitB
        if d2.isEmpty then none
        else
          match r2.drop d2.length with
          | [] => some (d1, d2)
          | c :: _ => if c == 46 || isWsB c || c == 41 then some (d1, d2) else none
      | _ => none
  else none

/-- Scanner of the en-dash substitution; `prev` is the character before the
current position (`none` at the start of the string, where the lookbehind
cannot match). -/
def endashGo : Nat → Option Nat → List Nat → List Nat
  | 0, _, l => l
  | _ + 1, _, [] => []
  | fuel + 1, prev, c :: t =>
    match prev with
    | none => c :: endashGo fuel (some c) t
    | some p =>
      match matchEndash p (c :: t) with
      | some dd =>
        dd.1 ++ 8211 :: dd.2 ++ endashGo fuel (some (dd.2.getLastD 48)) (t.drop (dd.1.length + dd.2.length))
      | none => c :: endashGo fuel (some c) t

/-- Translation of `re.sub(r'(?<=[,\s(])(\d+)-(\d+)(?=[.\s)]|$)', r'\1–\2', ref)`
(main.py line 355). -/
def endashSub (s : List Nat) : List Nat := endashGo (s.length + 1) none s

/-- Match of `([^\.]+)\.(.*)` against the text after the date anchor
(main.py line 367): group 1 is the non-empty run up to the first period,
group 2 the rest of the line (`.` stops at a newline). -/
def titleSegMatch (tay : List Nat) : Option (List Nat × List Nat) :=
  let g1 := tay.takeWhile (fun c => c != 46)
  if g1.isEmpty then none
  else
    match tay.drop g1.length with
    | 46 :: rest => some (g1, rest.takeWhile (fun c => c != 10))
    | _ => none

/-- Tail `,?\s*([\d–]+(?:–[\d–]+)?)?\.` of the journal pattern: optional comma
(greedy, with fallback), whitespace, an optional page run over `[\d–]`
(maximal, as shown by the class structure), then a literal period. -/
def jcTail (x : List Nat) : Bool :=
  let tryAt (y : List Nat) : Bool :=
    let y1 := y.dropWhile isWsB
    let pg := y1.takeWhile (fun c => isDigitB c || c == 8211)
    match y1.drop pg.length with
    | 46 :: _ => true
    | _ => false
  match x with
  | 44 :: t => tryAt t || tryAt x
  | _ => tryAt x

/-- Continuation of the journal pattern after the volume digits: optional
issue group `(?:\s*\((\w+)\))?` (greedy, with fallback), then `jcTail`. -/
def jcAfterVol (r : List Nat) : Bool :=
  let withIssue :=
    let r1 := r.dropWhile isWsB
    match r1 with
    | 40 :: r2 =>
      let w := r2.takeWhile isWordB
      if w.isEmpty then false
      else
        match r2.drop w.length with
        | 41 :: r3 => jcTail r3
        | _ => false
    | _ => false
  withIssue || jcTail r

/-- Greedy backtracking over the volume digits `(\d+)`: try the longest run
first, shrinking until the continuation matches; the successful prefix is
returned as the volume group. -/
def jcTryVolGo (s1 : List Nat) : Nat → Option (List Nat)
  | 0 => none
  | k + 1 => if jcAfterVol (s1.drop (k + 1)) then some (s1.take (k + 1)) else jcTryVolGo s1 k

/-- Volume part `\s*(\d+)` of the journal pattern followed by its continuation. -/
def jcNum (s : List Nat) : Option (List Nat) :=
  let s1 := s.dropWhile isWsB
  let ds := s1.takeWhile isDigitB
  if ds.isEmpty then none else jcTryVolGo s1 ds.length

/-- The `,?` after the journal title, greedy with fallback, then `jcNum`. -/
def journalAfterG1 (s : List Nat) : Option (List Nat) :=
  match s with
  | 44 :: t => jcNum t <|> jcNum s
  | _ => jcNum s

/-- Lazy extension of the journal-title group `[A-Z][^,(]+?`: consume one more
non-`,`/`(` character, try the continuation, extend on failure.  `pre` holds
the reversed group so far (at least the leading capital). -/
def journalG1Go (pre : List Nat) : List Nat → Option (List Nat × List Nat)
  | [] => none
  | c :: t =>
    if c == 44 || c == 40 then none
    else
      match journalAfterG1 t with
      | some vol => some ((c :: pre).reverse, vol)
      | none => journalG1Go (c :: pre) t

/-- Match of the journal pattern (main.py lines 393-398)
`^\s*([A-Z][^,(]+?),?\s*(\d+)(?:\s*\((\w+)\))?,?\s*([\d–]+(?:–[\d–]+)?)?\.`
returning (journal-title group, volume group). -/
def journalMatch (s : List Nat) : Option (List Nat × List Nat) :=
  match s.dropWhile isWsB with
  | c :: t => if isUpperB c then journalG1Go [c] t else none
  | [] => none

/-- End anchor `$` (end of string, or just before a final newline). -/
def endD (r : List Nat) : Bool := r.isEmpty || r == [10]

/-- The `th\s*ed\.` tail of the edition alternative, then the end anchor. -/
def edAfterNum (x : List Nat) : Bool :=
  match x with
  | 116 :: 104 :: y =>
    match y.dropWhile isWsB with
    | 101 :: 100 :: 46 :: z => endD z
    | _ => false
  | _ => false

/-- Edition alternative `\((?:(?:[Nn]o|Vol)\.\s*\d+|[2-9]|[1-9]\d+)th\s*ed\.`. -/
def edAlt1 (r : List Nat) : Bool :=
  match r with
  | 40 :: r2 =>
    let altA :=
      let noVol :=
        match r2 with
        | c1 :: 111 :: 46 :: rest => if c1 == 78 || c1 == 110 then some rest else none
        | _ => none
      let vol :=
        match r2 with
        | 86 :: 111 :: 108 :: 46 :: rest => some rest
        | _ => none
      match noVol <|> vol with
      | some rest =>
        let r3 := rest.dropWhile isWsB
        let ds := r3.takeWhile isDigitB
        if ds.isEmpty then false else edAfterNum (r3.drop ds.length)
      | none => false
    let altB :=
      match r2 with
      | d :: rest => (50 ≤ d && d ≤ 57) && edAfterNum rest
      | [] => false
    let altC :=
      match r2 with
      | d :: rest =>
        (49 ≤ d && d ≤ 57) &&
          (let ds := rest.takeWhile isDigitB
           !ds.isEmpty && edAfterNum (rest.drop ds.length))
      | [] => false
    altA || altB || altC
  | _ => false

/-- Edition alternative `(?:[Rr]evised|[Ss]pecial)\s*ed\.`. -/
def edAlt2 (r : List Nat) : Bool :=
  let tail (rest : List Nat) : Bool :=
    match rest.dropWhile isWsB with
    | 101 :: 100 :: 46 :: z => endD z
    | _ => false
  match r with
  | c :: 101 :: 118 :: 105 :: 115 :: 101 :: 100 :: rest =>
    (c == 82 || c == 114) && tail rest
  | _ =>
    match r with
    | c :: 112 :: 101 :: 99 :: 105 :: 97 :: 108 :: rest =>
      (c == 83 || c == 115) && tail rest
    | _ => false

/-- Technical-report alternative
`(?:[Tt]ech(?:nical)?\s*[Rr]ep(?:ort)?(?:\s*[Nn]o.)?)\s*[^)]+\)` (the final
`.` of `No.` is an unescaped any-character). -/
def edAlt3 (r : List Nat) : Bool :=
  let closePart (x : List Nat) : Bool :=
    let q := (x.takeWhile (fun c => c != 41)).length
    match x.drop q with
    | 41 :: z => q ≥ 1 && endD z
    | _ => false
  let afterRep (x : List Nat) : Bool :=
    let withNo :=
      match (x.dropWhile isWsB) with
      | c1 :: 111 :: _ :: rest2 => (c1 == 78 || c1 == 110) && closePart rest2
      | _ => false
    let noNo := closePart x
    withNo || noNo
  let afterTech (x : List Nat) : Bool :=
    match x.dropWhile isWsB with
    | c :: 101 :: 112 :: rest =>
      (c == 82 || c == 114) &&
        (let withOrt :=
           match rest with
           | 111 :: 114 :: 116 :: rest2 => afterRep rest2
           | _ => false
         withOrt || afterRep rest)
    | _ => false
  match r with
  | c :: 101 :: 99 :: 104 :: rest =>
    (c == 84 || c == 116) &&
      (let withNical :=
         match rest with
         | 110 :: 105 :: 99 :: 97 :: 108 :: rest2 => afterTech rest2
         | _ => false
       withNical || afterTech rest)
  | _ => false

/-- Continuation of the book-edition pattern after group 1: `\s*` then one of
the three edition alternatives, each already checking the end anchor. -/
def bookTailMatch (r : List Nat) : Bool :=
  let r1 := r.dropWhile isWsB
  edAlt1 r1 || edAlt2 r1 || edAlt3 r1

/-- Lazy extension of `(.+?)` in the book-edition pattern (characters other
than newline, shortest match first). -/
def bookG1Go (pre : List Nat) : List Nat → Option (List Nat)
  | [] => none
  | c :: t =>
    if c == 10 then none
    else if bookTailMatch t then some ((c :: pre).reverse)
    else bookG1Go (c :: pre) t

/-- Match of the book/report edition regex (main.py line 416) against the
sentence-cased title, returning group 1 (the title proper). -/
def bookEditionMatch (s : List Nat) : Option (List Nat) :=
  match s with
  | [] => none
  | c :: t => if c == 10 then none else if bookTailMatch t then some [c] else bookG1Go [c] t

/-- Fueled scanner of `re.sub(r'\s+,', ',', s)` (main.py line 425); the fuel
never runs out for the wrapper. -/
def cleanupSpaceCommaF : Nat → List Nat → List Nat
  | 0, l => l
  | _ + 1, [] => []
  | fuel + 1, c :: t =>
    if isWsB c then
      let run := t.takeWhile isWsB
      match t.drop run.length with
      | 44 :: rest => 44 :: cleanupSpaceCommaF fuel rest
      | _ => c :: cleanupSpaceCommaF fuel t
    else c :: cleanupSpaceCommaF fuel t

/-- Translation of `re.sub(r'\s+,', ',', s)` (main.py line 425). -/
def cleanupSpaceComma (l : List Nat) : List Nat := cleanupSpaceCommaF (l.length + 1) l

/-- Fueled scanner of `re.sub(r'\s+\.', '.', s)` (main.py line 426); the fuel
never runs out for the wrapper. -/
def cleanupSpaceDotF : Nat → List Nat → List Nat
  | 0, l => l
  | _ + 1, [] => []
  | fuel + 1, c :: t =>
    if isWsB c then
      let run := t.takeWhile isWsB
      match t.drop run.length with
      | 46 :: rest => 46 :: cleanupSpaceDotF fuel rest
      | _ => c :: cleanupSpaceDotF fuel t
    else c :: cleanupSpaceDotF fuel t

/-- Translation of `re.sub(r'\s+\.', '.', s)` (main.py line 426). -/
def cleanupSpaceDot (l : List Nat) : List Nat := cleanupSpaceDotF (l.length + 1) l

/-- Final cleanup of the reference parser (main.py lines 425-428): collapse
space-before-comma, space-before-period, whitespace runs, then strip. -/
def cleanup (s : List Nat) : List Nat :=
  strip (collapseWsRuns (cleanupSpaceDot (cleanupSpaceComma s)))

/-- Title/italics step of the reference parser (main.py lines 362-423):
locate the date anchor, sentence-case the title segment, then either mark the
journal name and volume (article) or the title itself (book/report) as italic
spans; the formatted-but-not-yet-cleaned string is returned with the spans. -/
def titleItalicsStep (ref : List Nat) : List Nat × List (Nat × Nat) :=
  match searchDateCore ref with
  | none => (ref, [])
  | some pc =>
    let cs := pc.1 + pc.2 + ((ref.drop (pc.1 + pc.2)).takeWhile isWsB).length
    let tay := ref.drop cs
    match titleSegMatch tay with
    | none => (ref, [])
    | some g =>
      let extracted := strip g.1
      let remaining := strip g.2
      let scTitle := titleWordsProcess extracted
      let ref2 := replaceFirst ref extracted scTitle
      let tEnd := cs + scTitle.length
      match journalMatch remaining with
      | some jv =>
        let jts := strip jv.1
        let jvs := strip jv.2
        (ref2,
          match indexOfFrom ref2 jts tEnd with
          | none => []
          | some a =>
            (a, a + jts.length) ::
              (match indexOfFrom ref2 jvs (a + jts.length) with
               | none => []
               | some b => [(b, b + jvs.length)]))
      | none =>
        let tIt :=
          match bookEditionMatch scTitle with
          | some g1 => strip g1
          | none => scTitle
        if cs < cs + tIt.length then (ref2, [(cs, cs + tIt.length)]) else (ref2, [])

/-- The reference parser up to (but not including) the final cleanup: the
pre-clean, author, URL, en-dash, and title/italics steps of
`format_apa_reference_with_formatting_and_url` (main.py lines 257-423). -/
def refCore (ref0 : List Nat) : List Nat × List (Nat × Nat) × Option (List Nat) :=
  let ref1 := authorStep (preClean ref0)
  let pr := stripUrlStep ref1
  let tr := titleItalicsStep (endashSub pr.1)
  (tr.1, tr.2, pr.2)

/-- Translation of `format_apa_reference_with_formatting_and_url`
(main.py lines 257-429), returning (formatted text, italic spans, url). -/
def format_apa_reference_with_formatting_and_url (ref0 : List Nat) :
    List Nat × List (Nat × Nat) × Option (List Nat) :=
  let r := refCore ref0
  (cleanup r.1, r.2.1, r.2.2)

/-- Match of `^(?:A|An|The)\s+` (IGNORECASE), returning the consumed length
(article plus the greedy whitespace run). -/
def matchLeadingArticle (s : List Nat) : Option Nat :=
  let wsAfter (rest : List Nat) (k : Nat) : Option Nat :=
    let w := rest.takeWhile isWsB
    if w.isEmpty then none else some (k + w.length)
  let tryA :=
    match s with
    | c :: rest => if ciIs c 97 then wsAfter rest 1 else none
    | [] => none
  let tryAn :=
    match s with
    | c1 :: c2 :: rest => if ciIs c1 97 && ciIs c2 110 then wsAfter rest 2 else none
    | _ => none
  let tryThe :=
    match s with
    | c1 :: c2 :: c3 :: rest =>
      if ciIs c1 116 && ciIs c2 104 && ciIs c3 101 then wsAfter rest 3 else none
    | _ => none
  tryA <|> tryAn <|> tryThe

/-- Literal `(etal)` of the author-key pattern. -/
def etalLit : List Nat := [40, 101, 116, 97, 108, 41]

/-- Continuation `,?\s*(?:[A-Z]\.|\(etal\))` of the author-key pattern. -/
def authorKeyCont (r : List Nat) : Bool :=
  let unitAt (x : List Nat) : Bool :=
    (match x with
     | u :: 46 :: _ => isUpperB u
     | _ => false) || startsWithL etalLit x
  let contFrom (x : List Nat) : Bool := unitAt (x.dropWhile isWsB)
  match r with
  | 44 :: t => contFrom t || contFrom r
  | _ => contFrom r

/-- Greedy backtracking over group 1 `[^,(]+` of the author-key pattern:
longest prefix first. -/
def authorKeyGo (s : List Nat) : Nat → Option (List Nat)
  | 0 => none
  | k + 1 => if authorKeyCont (s.drop (k + 1)) then some (s.take (k + 1)) else authorKeyGo s k

/-- Match of `^([^,(]+),?\s*(?:[A-Z]\.|\(etal\))` (main.py line 684),
returning group 1. -/
def authorKeyMatch (s : List Nat) : Option (List Nat) :=
  let run := s.takeWhile (fun c => c != 44 && c != 40)
  if run.isEmpty then none else authorKeyGo s run.length

/-- Translation of `apa_sort_key` (main.py lines 669-692). -/
def apa_sort_key (entry0 : List Nat) : List Nat :=
  let entry := strip entry0
  let sortable :=
    match searchDateCore entry with
    | none => entry
    | some pc => strip (entry.take (authorsRuleStart entry pc.1))
  let sortable2 :=
    match matchLeadingArticle sortable with
    | some n =>
      if containsSub ((splitOnSub sortable [46]).headD []) [44] then sortable
      else sortable.drop n
    | none => sortable
  match authorKeyMatch sortable2 with
  | some g1 => lowerAll g1
  | none =>
    let fw := sortable2.takeWhile (fun c => isWordB c || c == 45)
    if fw.isEmpty then lowerAll sortable2 else lowerAll fw

/-- Lexicographic comparison of code-point lists, Python string `<=`. -/
def lexLE : List Nat → List Nat → Bool
  | [], _ => true
  | _ :: _, [] => false
  | a :: as, b :: bs => if a == b then lexLE as bs else decide (a < b)

/-- The sort of the reference entries (main.py line 694):
`sorted(ref_entries, key=apa_sort_key)`.  Python's `sorted` is a stable sort
by the key, modelled by the (stable) `List.mergeSort`. -/
def sortRefs (entries : List (List Nat)) : List (List Nat) :=
  entries.mergeSort (fun x y => lexLE (apa_sort_key x) (apa_sort_key y))

/-- Non-empty stripped lines of the input text (main.py lines 457-461). -/
def nonemptyLinesOf (content : List Nat) : List (List Nat) :=
  ((splitOnSub content [10]).map strip).filter (fun l => !l.isEmpty)

/-- The 7-slot title block (main.py lines 463-464), padded with empty strings. -/
def titleBlockOf (ls : List (List Nat)) : List (List Nat) :=
  (List.range 7).map (fun i => ls.getD i [])

/-- Lines after the title block (main.py line 465). -/
def bodyAndRefsOf (ls : List (List Nat)) : List (List Nat) :=
  if ls.length > 7 then ls.drop 7 else []

/-- Literal `"references"`. -/
def referencesLit : List Nat := strOf (r"references")

/-- Test of `p.lower().startswith("references")` (main.py line 469). -/
def isRefStart (p : List Nat) : Bool := startsWithL referencesLit (lowerAll p)

/-- Index of the first line whose lowercase form starts with `"references"`
(main.py lines 467-471, where a failed search leaves `ref_idx = -1`). -/
def refIdxOf (br : List (List Nat)) : Option Nat := br.findIdx? isRefStart

/-- Split into main body and references (main.py lines 472-477): the sentinel
line itself is kept at the head of the references bucket. -/
def splitBodyRefs (br : List (List Nat)) : List (List Nat) × List (List Nat) :=
  match refIdxOf br with
  | some i => (br.take i, br.drop i)
  | none => (br, [])

/-- Fueled scanner of `re.sub(r'\s*\n+\s*', ' ', s)` (main.py line 556); the
fuel never runs out for the wrapper. -/
def collapseNlRunsF : Nat → List Nat → List Nat
  | 0, l => l
  | _ + 1, [] => []
  | fuel + 1, c :: t =>
    if isWsB c then
      let run := t.takeWhile isWsB
      if (c :: run).any (fun d => d == 10) then 32 :: collapseNlRunsF fuel (t.drop run.length)
      else c :: collapseNlRunsF fuel t
    else c :: collapseNlRunsF fuel t

/-- Translation of `re.sub(r'\s*\n+\s*', ' ', s)` (main.py line 556): any
whitespace run containing a newline collapses to one space. -/
def collapseNlRuns (l : List Nat) : List Nat := collapseNlRunsF (l.length + 1) l

/-- Abstract rendering in the document path (main.py lines 554-560): strip,
collapse newline runs, and truncate past 250 words with a `...` suffix. -/
def abstractRendered (abstract : List Nat) : List Nat :=
  let a := collapseNlRuns (strip abstract)
  let ws := splitWs a
  if ws.length > 250 then joinSpace (ws.take 250) ++ [46, 46, 46] else a

/-- Lowercasing after uppercasing gives the same result as lowercasing. -/
theorem toLowerN_toUpperN (c : Nat) : toLowerN (toUpperN c) = toLowerN c := by
  unfold toLowerN toUpperN
  by_cases h : 97 ≤ c ∧ c ≤ 122
  · rw [if_pos h, if_pos (by omega : 65 ≤ c - 32 ∧ c - 32 ≤ 90), if_neg (by omega)]
    omega
  · rw [if_neg h]

/-- Character lowercasing is idempotent. -/
theorem toLowerN_idem (c : Nat) : toLowerN (toLowerN c) = toLowerN c := by
  unfold toLowerN
  by_cases h : 65 ≤ c ∧ c ≤ 90
  · rw [if_pos h, if_neg (by omega)]
  · rw [if_neg h, if_neg h]

/-- Lowercasing a string of lowercase-stable characters is the identity. -/
theorem lowerAll_eq_self (w : List Nat) (h : ∀ c ∈ w, toLowerN c = c) : lowerAll w = w := by
  induction w with
  | nil => rfl
  | cons c t ih =>
    rw [List.forall_mem_cons] at h
    simp only [lowerAll, List.map_cons]
    rw [h.1]
    have := ih h.2
    simp only [lowerAll] at this
    rw [this]

/-- Lowercasing undoes `capitalizeW` on a lowercase-stable word. -/
theorem lowerAll_capitalizeW (w : List Nat) (h : ∀ c ∈ w, toLowerN c = c) :
    lowerAll (capitalizeW w) = w := by
  cases w with
  | nil => rfl
  | cons c t =>
    rw [List.forall_mem_cons] at h
    simp only [capitalizeW, lowerAll, List.map_cons, List.map_map]
    rw [toLowerN_toUpperN, h.1]
    have : ∀ d ∈ t, (toLowerN ∘ toLowerN) d = d := by
      intro d hd
      simp only [Function.comp_apply]
      rw [toLowerN_idem]
      exact h.2 d hd
    rw [List.map_congr_left this]
    simp

/-- Every word produced by `splitWsF` is non-empty, whitespace-free, and drawn
from the characters of the input, for any fuel. -/
theorem splitWsF_spec (fuel : Nat) :
    ∀ l, ∀ w ∈ splitWsF fuel l, w ≠ [] ∧ (∀ c ∈ w, isWsB c = false) ∧ (∀ c ∈ w, c ∈ l) := by
  induction fuel with
  | zero => intro l w hw; simp [splitWsF] at hw
  | succ fuel ih =>
    intro l w hw
    cases l with
    | nil => simp [splitWsF] at hw
    | cons c t =>
      rw [splitWsF] at hw
      by_cases hc : isWsB c
      · rw [if_pos hc] at hw
        obtain ⟨h1, h2, h3⟩ := ih t w hw
        exact ⟨h1, h2, fun d hd => List.mem_cons_of_mem c (h3 d hd)⟩
      · rw [if_neg hc] at hw
        rcases List.mem_cons.mp hw with hw | hw
        · subst hw
          refine ⟨by simp, ?_, ?_⟩
          · intro d hd
            rcases List.mem_cons.mp hd with h | h
            · subst h; simpa using hc
            · have := List.mem_takeWhile_imp h
              simpa using this
          · intro d hd
            rcases List.mem_cons.mp hd with h | h
            · subst h; exact List.mem_cons_self _ _
            · exact List.mem_cons_of_mem c ((List.takeWhile_sublist _).mem h)
        · obtain ⟨h1, h2, h3⟩ := ih _ w hw
          exact ⟨h1, h2, fun d hd => List.mem_cons_of_mem c ((List.dropWhile_sublist _).mem (h3 d hd))⟩

/-- Word production of `splitWs`: non-empty, whitespace-free, characters from
the input. -/
theorem splitWs_spec (l : List Nat) :
    ∀ w ∈ splitWs l, w ≠ [] ∧ (∀ c ∈ w, isWsB c = false) ∧ (∀ c ∈ w, c ∈ l) :=
  splitWsF_spec (l.length + 1) l

/-- The fuel of `splitWsF` is irrelevant once it exceeds the list length. -/
theorem splitWsF_congr : ∀ f1 f2 (l : List Nat), l.length < f1 → l.length < f2 →
    splitWsF f1 l = splitWsF f2 l := by
  intro f1
  induction f1 with
  | zero => intro f2 l h1 h2; omega
  | succ f1 ih =>
    intro f2 l h1 h2
    cases f2 with
    | zero => omega
    | succ f2 =>
      cases l with
      | nil => simp [splitWsF]
      | cons c t =>
        rw [splitWsF, splitWsF]
        by_cases hc : isWsB c
        · rw [if_pos hc, if_pos hc]
          exact ih f2 t (by simp at h1; omega) (by simp at h2; omega)
        · rw [if_neg hc, if_neg hc]
          have hd := (List.dropWhile_sublist (l := t) (p := fun d => !isWsB d)).length_le
          rw [ih f2 _ (by simp at h1; omega) (by simp at h2; omega)]

/-- `splitWs` of the empty string. -/
theorem splitWs_nil : splitWs [] = [] := rfl

/-- Unfolding equation of `splitWs` on a cons cell. -/
theorem splitWs_cons (c : Nat) (t : List Nat) :
    splitWs (c :: t) = if isWsB c then splitWs t
      else (c :: t.takeWhile (fun d => !isWsB d)) :: splitWs (t.dropWhile (fun d => !isWsB d)) := by
  show splitWsF (t.length + 1 + 1) (c :: t) = _
  rw [splitWsF]
  by_cases hc : isWsB c
  · rw [if_pos hc, if_pos hc]
    rfl
  · rw [if_neg hc, if_neg hc]
    have hd := (List.dropWhile_sublist (l := t) (p := fun d => !isWsB d)).length_le
    rw [splitWsF_congr (t.length + 1) ((t.dropWhile (fun d => !isWsB d)).length + 1)
      _ (by omega) (by omega)]
    rfl

/-- If every character satisfies `p`, `takeWhile p` is the identity. -/
theorem takeWhile_all (p : Nat → Bool) (l : List Nat) (h : ∀ c ∈ l, p c = true) :
    l.takeWhile p = l := by
  induction l with
  | nil => rfl
  | cons c t ih =>
    rw [List.takeWhile_cons, if_pos (h c (List.mem_cons_self c t))]
    rw [ih (fun d hd => h d (List.mem_cons_of_mem c hd))]

/-- If every character satisfies `p`, `dropWhile p` empties the list. -/
theorem dropWhile_all (p : Nat → Bool) (l : List Nat) (h : ∀ c ∈ l, p c = true) :
    l.dropWhile p = [] := by
  induction l with
  | nil => rfl
  | cons c t ih =>
    rw [List.dropWhile_cons, if_pos (h c (List.mem_cons_self c t))]
    exact ih (fun d hd => h d (List.mem_cons_of_mem c hd))

/-- Unfolding of `joinSpace` on a two-or-more-element list. -/
theorem joinSpace_cons_cons (a b : List Nat) (rest : List (List Nat)) :
    joinSpace (a :: b :: rest) = a ++ 32 :: joinSpace (b :: rest) := by
  simp [joinSpace, List.intercalate, List.intersperse]

/-- `joinSpace` of a single word. -/
theorem joinSpace_single (a : List Nat) : joinSpace [a] = a := by
  simp [joinSpace, List.intercalate, List.intersperse]

/-- Splitting on whitespace inverts joining with single spaces, provided the
words are non-empty and whitespace-free. -/
theorem splitWs_joinSpace (ws : List (List Nat))
    (h : ∀ w ∈ ws, w ≠ [] ∧ ∀ c ∈ w, isWsB c = false) :
    splitWs (joinSpace ws) = ws := by
  induction ws with
  | nil => rfl
  | cons w rest ih =>
    obtain ⟨hne, hnw⟩ := h w (List.mem_cons_self w rest)
    cases rest with
    | nil =>
      cases w with
      | nil => exact absurd rfl hne
      | cons c t =>
        have hc : isWsB c = false := hnw c (List.mem_cons_self c t)
        have ht : ∀ d ∈ t, (fun d => !isWsB d) d = true := by
          intro d hd
          simp [hnw d (List.mem_cons_of_mem c hd)]
        rw [joinSpace_single, splitWs_cons, if_neg (by simp [hc]),
          takeWhile_all _ _ ht, dropWhile_all _ _ ht, splitWs_nil]
    | cons w2 rest2 =>
      cases w with
      | nil => exact absurd rfl hne
      | cons c t =>
        have hc : isWsB c = false := hnw c (List.mem_cons_self c t)
        have ht : ∀ d ∈ t, (fun d => !isWsB d) d = true := by
          intro d hd
          simp [hnw d (List.mem_cons_of_mem c hd)]
        rw [joinSpace_cons_cons]
        show splitWs (c :: (t ++ 32 :: joinSpace (w2 :: rest2))) = (c :: t) :: w2 :: rest2
        rw [splitWs_cons, if_neg (by simp [hc])]
        have htake : (t ++ 32 :: joinSpace (w2 :: rest2)).takeWhile (fun d => !isWsB d) = t := by
          rw [List.takeWhile_append, takeWhile_all _ t ht]
          simp [List.takeWhile_cons, isWsB]
        have hdrop : (t ++ 32 :: joinSpace (w2 :: rest2)).dropWhile (fun d => !isWsB d)
            = 32 :: joinSpace (w2 :: rest2) := by
          rw [List.dropWhile_append, dropWhile_all _ t ht]
          simp [List.dropWhile_cons, isWsB]
        rw [htake, hdrop]
        have h32 : splitWs (32 :: joinSpace (w2 :: rest2)) = splitWs (joinSpace (w2 :: rest2)) := by
          rw [splitWs_cons, if_pos (by simp [isWsB])]
        rw [h32, ih (fun v hv => h v (List.mem_cons_of_mem _ hv))]

/-- `lowerAll` distributes over `joinSpace` (a space lowercases to itself). -/
theorem lowerAll_joinSpace (ps : List (List Nat)) :
    lowerAll (joinSpace ps) = joinSpace (ps.map lowerAll) := by
  induction ps with
  | nil => rfl
  | cons a rest ih =>
    cases rest with
    | nil => simp [joinSpace_single]
    | cons b rest2 =>
      simp only [List.map_cons] at *
      rw [joinSpace_cons_cons, joinSpace_cons_cons]
      simp only [lowerAll, List.map_append, List.map_cons] at *
      rw [ih]
      rfl

/-- Lowercasing the processed words recovers the original lowercase words. -/
theorem map_lowerAll_titleProcessWords (ws : List (List Nat))
    (h : ∀ w ∈ ws, ∀ c ∈ w, toLowerN c = c) :
    (titleProcessWords ws).map lowerAll = ws := by
  cases ws with
  | nil => rfl
  | cons w rest =>
    simp only [titleProcessWords, List.map_cons, List.map_map]
    rw [lowerAll_capitalizeW w (h w (List.mem_cons_self _ _))]
    congr 1
    have hp : ∀ v ∈ rest, (lowerAll ∘ titleSmallWord) v = v := by
      intro v hv
      simp only [Function.comp_apply, titleSmallWord]
      by_cases hsm : v ∈ smallWords
      · rw [if_pos hsm]
        exact lowerAll_eq_self v (h v (List.mem_cons_of_mem _ hv))
      · rw [if_neg hsm]
        exact lowerAll_capitalizeW v (h v (List.mem_cons_of_mem _ hv))
    rw [List.map_congr_left hp]
    simp

/-- C7: `titleCase` is idempotent: for every string `s`,
`title_case (title_case s) = title_case s`. -/
theorem C7_title_case_idempotent (s : List Nat) :
    title_case (title_case s) = title_case s := by
  have hspec := splitWs_spec (lowerAll s)
  have hstable : ∀ w ∈ splitWs (lowerAll s), ∀ c ∈ w, toLowerN c = c := by
    intro w hw c hc
    have hmem := (hspec w hw).2.2 c hc
    simp only [lowerAll, List.mem_map] at hmem
    obtain ⟨d, _, hd⟩ := hmem
    rw [← hd, toLowerN_idem]
  have hfacts : ∀ w ∈ splitWs (lowerAll s), w ≠ [] ∧ ∀ c ∈ w, isWsB c = false :=
    fun w hw => ⟨(hspec w hw).1, (hspec w hw).2.1⟩
  calc title_case (title_case s)
      = joinSpace (titleProcessWords (splitWs (lowerAll
          (joinSpace (titleProcessWords (splitWs (lowerAll s))))))) := rfl
    _ = joinSpace (titleProcessWords (splitWs (joinSpace
          ((titleProcessWords (splitWs (lowerAll s))).map lowerAll)))) := by
        rw [lowerAll_joinSpace]
    _ = joinSpace (titleProcessWords (splitWs (joinSpace (splitWs (lowerAll s))))) := by
        rw [map_lowerAll_titleProcessWords _ hstable]
    _ = joinSpace (titleProcessWords (splitWs (lowerAll s))) := by
        rw [splitWs_joinSpace _ hfacts]
    _ = title_case s := rfl

/-- Unfolding of `List.intercalate` on a two-or-more-element list. -/
theorem intercalate_cons_cons (sep a b : List Nat) (rest : List (List Nat)) :
    List.intercalate sep (a :: b :: rest) = a ++ sep ++ List.intercalate sep (b :: rest) := by
  simp [List.intercalate, List.intersperse]

/-- `List.intercalate` of a single element. -/
theorem intercalate_single (sep a : List Nat) : List.intercalate sep [a] = a := by
  simp [List.intercalate, List.intersperse]

/-- `List.intercalate` over a list with last element `y` split off. -/
theorem intercalate_concat (sep : List Nat) : ∀ (xs : List (List Nat)) (x y : List Nat),
    List.intercalate sep (x :: (xs ++ [y])) = List.intercalate sep (x :: xs) ++ sep ++ y := by
  intro xs
  induction xs with
  | nil =>
    intro x y
    simp [intercalate_cons_cons, intercalate_single]
  | cons x2 xs2 ih =>
    intro x y
    simp only [List.cons_append]
    rw [intercalate_cons_cons, ih x2 y, intercalate_cons_cons]
    simp [List.append_assoc]

/-- `rstrip(',')` does nothing when the last character is not a comma. -/
theorem stripRChar_append_eq (a w : List Nat) (hw : w ≠ []) (hl : w.getLast? ≠ some 44) :
    stripRChar 44 (a ++ w) = a ++ w := by
  obtain ⟨ys, y, rfl⟩ := w.eq_nil_or_concat.resolve_left hw
  simp only [List.concat_eq_append] at hl ⊢
  rw [List.getLast?_concat] at hl
  have hy : y ≠ 44 := fun h => hl (by rw [h])
  simp only [stripRChar]
  rw [show a ++ (ys ++ [y]) = (a ++ ys) ++ [y] by simp, List.reverse_append]
  simp [List.dropWhile_cons, hy]

/-- `rstrip(',')` does nothing on a join of names none of which ends in a
comma. -/
theorem stripRChar_intercalate (sep : List Nat) (ws : List (List Nat))
    (hws : ws ≠ []) (h : ∀ w ∈ ws, w ≠ [] ∧ w.getLast? ≠ some 44) :
    stripRChar 44 (List.intercalate sep ws) = List.intercalate sep ws := by
  obtain ⟨xs, y, rfl⟩ := ws.eq_nil_or_concat.resolve_left hws
  simp only [List.concat_eq_append] at h ⊢
  obtain ⟨hy1, hy2⟩ := h y (by simp)
  cases xs with
  | nil =>
    rw [List.nil_append, intercalate_single]
    have := stripRChar_append_eq [] y hy1 hy2
    simpa using this
  | cons x xs' =>
    rw [List.cons_append, intercalate_concat sep xs' x y,
      show List.intercalate sep (x :: xs') ++ sep ++ y
        = (List.intercalate sep (x :: xs') ++ sep) ++ y by simp]
    exact stripRChar_append_eq _ y hy1 hy2

/-- The author-join rule exactly as the claim words it (spec §4.4 step 4):
one name stands alone; two are joined `A, & B`; 3-20 are comma-separated with
`", & "` before the last; 21 or more keep the first 19 comma-separated, then
`", ..., "`, then the last author. -/
def specAuthorJoin (names : List (List Nat)) : List Nat :=
  if names.length = 1 then names.headD []
  else if names.length = 2 then names.headD [] ++ ampSep ++ names.getLastD []
  else if names.length ≤ 20 then
    List.intercalate commaSpace names.dropLast ++ ampSep ++ names.getLastD []
  else List.intercalate commaSpace (names.take 19) ++ ellipsisSep ++ names.getLastD []

/-- C2: for every non-empty list of formatted author names (non-empty, not
comma-terminated, as `format_individual_author_name` produces), the author-join
step follows the claim's bucketed rule; with no names it falls back to the raw
author part. -/
theorem C2_author_join (names : List (List Nat)) (fallback : List Nat)
    (h : ∀ w ∈ names, w ≠ [] ∧ w.getLast? ≠ some 44) :
    (names = [] → joinAuthors names fallback = fallback) ∧
    (names ≠ [] → joinAuthors names fallback = specAuthorJoin names) := by
  constructor
  · intro he
    subst he
    rfl
  · intro hne
    match names, hne with
    | [a], _ =>
      simp [joinAuthors, specAuthorJoin]
    | a :: b :: rest, _ =>
      have h' : ∀ w ∈ a :: b :: rest, w ≠ [] ∧ w.getLast? ≠ some 44 := h
      show joinAuthors (a :: b :: rest) fallback = _
      rw [joinAuthors, specAuthorJoin]
      simp only [List.length_cons, beq_iff_eq]
      by_cases h21 : rest.length + 1 + 1 ≥ 21
      · rw [if_pos h21,
          if_neg (show ¬(rest.length + 1 + 1 = 1) by omega),
          if_neg (show ¬(rest.length + 1 + 1 = 2) by omega),
          if_neg (show ¬(rest.length + 1 + 1 ≤ 20) by omega)]
        have htk : (a :: b :: rest).take 19 ≠ [] := by
          intro hx
          have := congrArg List.length hx
          simp at this
        rw [stripRChar_intercalate commaSpace _ htk
          (fun w hw => h' w (List.mem_of_mem_take hw))]
      · rw [if_neg h21, if_neg (show ¬(rest.length + 1 + 1 = 1) by omega)]
        by_cases h2 : rest.length + 1 + 1 = 2
        · rw [if_pos h2, if_pos h2]
          rfl
        · rw [if_neg h2, if_neg h2, if_pos (show rest.length + 1 + 1 ≤ 20 by omega)]
          have hdk : (a :: b :: rest).dropLast ≠ [] := by
            intro hx
            have := congrArg List.length hx
            simp at this
          rw [stripRChar_intercalate commaSpace _ hdk
            (fun w hw => h' w (List.dropLast_sublist _ |>.mem hw))]

/-- Witness for C2 at the 21-author boundary: 21 single-letter names. -/
theorem C2_author_join_witness :
    joinAuthors ((List.range 21).map (fun i => [65 + i])) [] =
      specAuthorJoin ((List.range 21).map (fun i => [65 + i])) ∧
      specAuthorJoin ((List.range 21).map (fun i => [65 + i])) =
        strOf (r"A, B, C, D, E, F, G, H, I, J, K, L, M, N, O, P, Q, R, S, ..., U") := by
  constructor
  · exact (C2_author_join _ [] (by decide)).2 (by decide)
  · decide

/-- The newline-run collapse is the identity on newline-free strings. -/
theorem collapseNlRunsF_id (fuel : Nat) :
    ∀ l : List Nat, (∀ c ∈ l, c ≠ 10) → collapseNlRunsF fuel l = l := by
  induction fuel with
  | zero => intro l _; rfl
  | succ fuel ih =>
    intro l hl
    cases l with
    | nil => rfl
    | cons c t =>
      rw [List.forall_mem_cons] at hl
      rw [collapseNlRunsF]
      by_cases hc : isWsB c
      · rw [if_pos hc]
        have hany : ((c :: t.takeWhile isWsB).any (fun d => d == 10)) = false := by
          rw [List.any_eq_false]
          intro d hd
          rcases List.mem_cons.mp hd with h | h
          · subst h; simpa using hl.1
          · have := (List.takeWhile_sublist (l := t) isWsB).mem h
            simpa using hl.2 d this
        rw [if_neg (by simp [hany]), ih t hl.2]
      · rw [if_neg hc, ih t hl.2]

/-- The newline-run collapse is the identity on newline-free strings. -/
theorem collapseNlRuns_id (l : List Nat) (h : ∀ c ∈ l, c ≠ 10) : collapseNlRuns l = l :=
  collapseNlRunsF_id (l.length + 1) l h

/-- C10: in the document output path, an abstract paragraph of more than 250
words is truncated to its first 250 words with `"..."` appended, and one of
250 words or fewer is rendered in full.  The hypotheses state that the
paragraph is one of the segmenter's lines: newline-free and already stripped. -/
theorem C10_abstract_truncation (s : List Nat) (hnl : ∀ c ∈ s, c ≠ 10)
    (hstrip : strip s = s) :
    ((splitWs s).length > 250 →
      abstractRendered s = joinSpace ((splitWs s).take 250) ++ [46, 46, 46]) ∧
    ((splitWs s).length ≤ 250 → abstractRendered s = s) := by
  have ha : collapseNlRuns (strip s) = s := by
    rw [hstrip]
    exact collapseNlRuns_id s hnl
  constructor
  · intro hgt
    rw [abstractRendered, ha, if_pos hgt]
  · intro hle
    rw [abstractRendered, ha, if_neg (by omega)]

/-- Witness for C10: a 251-word abstract is truncated with an ellipsis, and a
short abstract is returned in full. -/
theorem C10_abstract_truncation_witness :
    abstractRendered (joinSpace (List.replicate 251 [119])) =
      joinSpace ((splitWs (joinSpace (List.replicate 251 [119]))).take 250) ++ [46, 46, 46] ∧
    abstractRendered (strOf (r"short abstract")) = strOf (r"short abstract") := by
  constructor
  · exact (C10_abstract_truncation _ (by decide) (by decide)).1 (by decide)
  · exact (C10_abstract_truncation _ (by decide) (by decide)).2 (by decide)

/-- Characterization of the whitespace test. -/
theorem isWsB_iff (c : Nat) :
    isWsB c = true ↔ (c = 9 ∨ c = 10 ∨ c = 11 ∨ c = 12 ∨ c = 13 ∨ c = 32) := by
  simp [isWsB]
  tauto

/-- Lowercasing does not change whether a character is whitespace. -/
theorem isWsB_toLowerN (c : Nat) : isWsB (toLowerN c) = isWsB c := by
  unfold toLowerN
  split
  · have h1 : isWsB (c + 32) = false := by
      rw [← Bool.not_eq_true, isWsB_iff]
      omega
    have h2 : isWsB c = false := by
      rw [← Bool.not_eq_true, isWsB_iff]
      omega
    rw [h1, h2]
  · rfl

/-- A non-empty whitespace-free string splits into exactly itself. -/
theorem splitWs_single_of (l : List Nat) (hne : l ≠ [])
    (hnw : ∀ c ∈ l, isWsB c = false) : splitWs l = [l] := by
  cases l with
  | nil => exact absurd rfl hne
  | cons c t =>
    rw [List.forall_mem_cons] at hnw
    have ht : ∀ d ∈ t, (fun d => !isWsB d) d = true := by
      intro d hd
      simp [hnw.2 d hd]
    rw [splitWs_cons, if_neg (by simp [hnw.1]), takeWhile_all _ _ ht, dropWhile_all _ _ ht,
      splitWs_nil]

/-- C8 (amended): `detect_heading` is total with range {0, 1, 2} (level 1,
level 2, ordinary paragraph); there is no block-quote category, and every line
whose cleaned text has more than 40 words is classified 0, an ordinary
paragraph (which the renderer sentence-cases and indents). -/
theorem C8_heading_classifier (t : List Nat) :
    (detect_heading t = 0 ∨ detect_heading t = 1 ∨ detect_heading t = 2) ∧
    ((splitWs (strip (removeTags t))).length > 40 → detect_heading t = 0) := by
  have hvocab : ∀ v ∈ headingsVocab, v ≠ [] ∧ ∀ d ∈ v, isWsB d = false := by decide
  constructor
  · unfold detect_heading
    by_cases h1 : lowerAll (strip (removeTags t)) ∈ headingsVocab
    · rw [if_pos h1]
      exact Or.inr (Or.inl rfl)
    · rw [if_neg h1]
      by_cases h2 : istitleS (strip (removeTags t)) ∧
          (splitWs (strip (removeTags t))).length < 10 ∧
          lowerAll (strip (removeTags t)) ∉ [keywordsLit]
      · rw [if_pos h2]
        exact Or.inr (Or.inr rfl)
      · rw [if_neg h2]
        exact Or.inl rfl
  · intro hwc
    unfold detect_heading
    by_cases h1 : lowerAll (strip (removeTags t)) ∈ headingsVocab
    · exfalso
      obtain ⟨hv1, hv2⟩ := hvocab _ h1
      have hne : strip (removeTags t) ≠ [] := by
        intro hx
        rw [hx] at hv1
        exact hv1 rfl
      have hnw : ∀ c ∈ strip (removeTags t), isWsB c = false := by
        intro c hc
        have := hv2 (toLowerN c) (List.mem_map_of_mem toLowerN hc)
        rw [isWsB_toLowerN] at this
        exact this
      rw [splitWs_single_of _ hne hnw] at hwc
      simp at hwc
    · rw [if_neg h1]
      by_cases h2 : istitleS (strip (removeTags t)) ∧
          (splitWs (strip (removeTags t))).length < 10 ∧
          lowerAll (strip (removeTags t)) ∉ [keywordsLit]
      · omega
      · rw [if_neg h2]

/-- C8 (counterexample): a 41-word line is not a block quote left unchanged by
case transforms: the classifier (whose only values are 0, 1, 2) assigns it 0,
an ordinary paragraph, and the renderer's `sentence_case` does alter it. -/
theorem C8_counterexample :
    detect_heading (joinSpace (List.replicate 41 [119])) = 0 ∧
    (splitWs (joinSpace (List.replicate 41 [119]))).length = 41 ∧
    sentence_case (joinSpace (List.replicate 41 [119])) ≠
      joinSpace (List.replicate 41 [119]) := by
  decide

/-- Witness for C8: a concrete 41-word line is classified 0. -/
theorem C8_heading_classifier_witness :
    detect_heading (joinSpace (List.replicate 41 [119])) = 0 :=
  (C8_heading_classifier _).2 (by decide)

/-- The title-word loop of the reference parser is a map of the per-word rule. -/
theorem titleRestLoop_eq_map (l : List (List Nat)) :
    titleRestLoop l = l.map titleSmartWord := by
  induction l with
  | nil => rfl
  | cons w rest ih => rw [titleRestLoop, ih, List.map_cons]

/-- C9 (amended): the reference parser's smart sentence casing splits the
title into whitespace words and rejoins with single spaces; the first word is
`capitalize`d (first letter up, rest lowered); every other word is preserved
when fully uppercase or when already title-cased, and lowercased otherwise;
input with no words (empty or all whitespace) is returned unchanged. -/
theorem C9_smart_sentence_case (s : List Nat) :
    (splitWs s = [] → titleWordsProcess s = s) ∧
    (∀ w rest, splitWs s = w :: rest →
      titleWordsProcess s = joinSpace (capitalizeW w ::
        rest.map (fun v => if isupperS v then v else if istitleS v then v else lowerAll v))) := by
  constructor
  · intro h
    rw [titleWordsProcess, h]
  · intro w rest h
    rw [titleWordsProcess, h]
    show joinSpace (capitalizeW w :: titleRestLoop rest) = _
    rw [titleRestLoop_eq_map]
    rfl

/-- Witness for C9: the smart casing on `"the BIG Dog"` follows the amended
word rule. -/
theorem C9_smart_sentence_case_witness :
    titleWordsProcess (strOf (r"the BIG Dog")) =
      joinSpace (capitalizeW (strOf (r"the")) ::
        [strOf (r"BIG"), strOf (r"Dog")].map
          (fun v => if isupperS v then v else if istitleS v then v else lowerAll v)) :=
  (C9_smart_sentence_case _).2 (strOf (r"the")) [strOf (r"BIG"), strOf (r"Dog")] (by decide)

/-- C9 (counterexample): the claim says every non-first word that is not fully
uppercase is lowercased, so `"the BIG Dog"` would become `"The BIG dog"`; both
the parser's smart casing and `sentence_case` keep the title-cased `"Dog"`. -/
theorem C9_counterexample :
    titleWordsProcess (strOf (r"the BIG Dog")) = strOf (r"The BIG Dog") ∧
    sentence_case (strOf (r"the BIG Dog")) = strOf (r"The BIG Dog") ∧
    strOf (r"The BIG Dog") ≠ strOf (r"The BIG dog") := by
  decide

/-- C6 (amended): the first line whose lowercased text starts with
`"references"` splits the post-title lines: everything before it is main body,
and the references bucket is everything from the sentinel on — the sentinel
line itself is the bucket's head (it is rendered as the heading and filtered
from the entries later), and every subsequent line lands in the bucket. -/
theorem C6_references_segmentation (br : List (List Nat)) (i : Nat)
    (h : refIdxOf br = some i) :
    (splitBodyRefs br).1 = br.take i ∧
    (splitBodyRefs br).2 = br.drop i ∧
    (∃ sentinel, br[i]? = some sentinel ∧ isRefStart sentinel = true ∧
      (splitBodyRefs br).2.head? = some sentinel ∧ sentinel ∈ (splitBodyRefs br).2) ∧
    (∀ j x, i ≤ j → br[j]? = some x → x ∈ (splitBodyRefs br).2) ∧
    (∀ j, j < i → ∀ x, br[j]? = some x → isRefStart x = false) := by
  have hsplit : splitBodyRefs br = (br.take i, br.drop i) := by
    rw [splitBodyRefs, h]
  obtain ⟨hlt, hp, hbefore⟩ := List.findIdx?_eq_some_iff_getElem.mp h
  refine ⟨by rw [hsplit], by rw [hsplit], ?_, ?_, ?_⟩
  · refine ⟨br[i], by simp [List.getElem?_eq_getElem hlt], hp, ?_, ?_⟩
    · rw [hsplit]
      rw [List.drop_eq_getElem_cons hlt]
      rfl
    · rw [hsplit]
      rw [List.drop_eq_getElem_cons hlt]
      exact List.mem_cons_self _ _
  · intro j x hij hx
    rw [hsplit]
    have hjlen : j < br.length := by
      by_contra hc
      rw [List.getElem?_eq_none (by omega)] at hx
      exact Option.noConfusion hx
    have hdx : (br.drop i)[j - i]? = some x := by
      rw [List.getElem?_drop]
      rw [show i + (j - i) = j by omega]
      exact hx
    obtain ⟨h1, h2⟩ := List.getElem?_eq_some.mp hdx
    exact h2 ▸ List.getElem_mem h1
  · intro j hj x hx
    have hjlen : j < br.length := by omega
    rw [List.getElem?_eq_getElem hjlen] at hx
    have hrx : x = br[j] := (Option.some.inj hx).symm
    subst hrx
    simpa using hbefore j hj

/-- Witness for C6: the split on a concrete three-line document. -/
theorem C6_references_segmentation_witness :
    (splitBodyRefs (strsOf [r"Body one", r"References", r"Cite x"])).2.head? =
      some (strOf (r"References")) := by
  obtain ⟨-, -, ⟨sentinel, hs, -, hh, -⟩, -, -⟩ :=
    C6_references_segmentation (strsOf [r"Body one", r"References", r"Cite x"]) 1 (by decide)
  rw [hh]
  have : sentinel = strOf (r"References") := by
    have hd : (strsOf [r"Body one", r"References", r"Cite x"])[1]? =
        some (strOf (r"References")) := by decide
    rw [hd] at hs
    exact (Option.some.inj hs).symm
  rw [this]

/-- C6 (counterexample): the sentinel line is added to the references bucket,
refuting the claim that it is not added to any output bucket. -/
theorem C6_counterexample :
    (splitBodyRefs (strsOf [r"Body one", r"References", r"Cite x"])).2 =
      strsOf [r"References", r"Cite x"] ∧
    strOf (r"References") ∈ (splitBodyRefs (strsOf [r"Body one", r"References", r"Cite x"])).2 := by
  decide

/-- The well-formed input of the reference round-trip claim. -/
def c1in : List Nat :=
  strOf (r"Smith, J. (2020). The effects of sleep. Journal of Sleep Studies, 12(3), 45-60. https://doi.org/10.1/xyz")

/-- The text the parser actually returns for `c1in`. -/
def c1actual : List Nat :=
  strOf (r"Smith, & J (2020). The effects of sleep. Journal of Sleep Studies, 12(3), 45–60.")

/-- The text the claim asserts (author segment `Smith, J.`). -/
def c1claimed : List Nat :=
  strOf (r"Smith, J. (2020). The effects of sleep. Journal of Sleep Studies, 12(3), 45–60.")

/-- The URL of the round-trip claim. -/
def c1url : List Nat := strOf (r"https://doi.org/10.1/xyz")

/-- C1 (counterexample): the parser does not return a text whose author
segment is `"Smith, J."` — the comma split inside the author step turns the
single author into the two candidates `Smith` and `J.`, formatted as
`"Smith, & J"`, so the formatted text differs from the claimed one. -/
theorem C1_counterexample :
    (format_apa_reference_with_formatting_and_url c1in).1 = c1actual ∧
    c1actual ≠ c1claimed ∧
    c1actual.take 10 = strOf (r"Smith, & J") := by
  decide

/-- C1 (amended): on the round-trip input the parser returns the author
segment `"Smith, & J"` (not `"Smith, J."`), date `"(2020)"`, italic spans
(41, 65) and (67, 69) covering exactly `"Journal of Sleep Studies"` and
`"12"`, the page range rendered `"45–60"` with an en-dash, and the URL
`"https://doi.org/10.1/xyz"`. -/
theorem C1_reference_roundtrip :
    format_apa_reference_with_formatting_and_url c1in =
      (c1actual, [(41, 65), (67, 69)], some c1url) ∧
    c1actual.take 10 = strOf (r"Smith, & J") ∧
    ((c1actual.drop 11).take 7 = strOf (r"(2020).")) ∧
    ((c1actual.drop 41).take 24 = strOf (r"Journal of Sleep Studies")) ∧
    ((c1actual.drop 67).take 2 = strOf (r"12")) ∧
    ((c1actual.drop 74).take 5 = strOf (r"45–60")) := by
  decide

/-- Reflexivity of the lexicographic comparison. -/
theorem lexLE_refl (a : List Nat) : lexLE a a = true := by
  induction a with
  | nil => rfl
  | cons x xs ih => simp [lexLE, ih]

/-- Totality of the lexicographic comparison. -/
theorem lexLE_total (a : List Nat) : ∀ b, (lexLE a b || lexLE b a) = true := by
  induction a with
  | nil => intro b; simp [lexLE]
  | cons x xs ih =>
    intro b
    cases b with
    | nil => simp [lexLE]
    | cons y ys =>
      by_cases hxy : x = y
      · subst hxy
        simpa [lexLE] using ih ys
      · simp only [lexLE, Bool.or_eq_true]
        rw [if_neg (by simpa using hxy), if_neg (by simp [Ne.symm hxy])]
        simp only [decide_eq_true_eq]
        omega

/-- Transitivity of the lexicographic comparison. -/
theorem lexLE_trans : ∀ (a b c : List Nat),
    lexLE a b = true → lexLE b c = true → lexLE a c = true := by
  intro a
  induction a with
  | nil => intro b c _ _; simp [lexLE]
  | cons x xs ih =>
    intro b c h1 h2
    cases b with
    | nil => simp [lexLE] at h1
    | cons y ys =>
      cases c with
      | nil => simp [lexLE] at h2
      | cons z zs =>
        simp only [lexLE] at h1 h2 ⊢
        by_cases hxy : (x == y) = true <;> by_cases hyz : (y == z) = true
        · rw [if_pos hxy] at h1
          rw [if_pos hyz] at h2
          simp only [beq_iff_eq] at hxy hyz
          rw [if_pos (by simp [hxy, hyz])]
          exact ih ys zs h1 h2
        · rw [if_pos hxy] at h1
          rw [if_neg hyz] at h2
          simp only [beq_iff_eq] at hxy hyz
          simp only [decide_eq_true_eq] at h2
          rw [if_neg (by simp only [beq_iff_eq]; omega)]
          simp only [decide_eq_true_eq]
          omega
        · rw [if_neg hxy] at h1
          rw [if_pos hyz] at h2
          simp only [beq_iff_eq] at hxy hyz
          simp only [decide_eq_true_eq] at h1
          rw [if_neg (by simp only [beq_iff_eq]; omega)]
          simp only [decide_eq_true_eq]
          omega
        · rw [if_neg hxy] at h1
          rw [if_neg hyz] at h2
          simp only [beq_iff_eq] at hxy hyz
          simp only [decide_eq_true_eq] at h1 h2
          rw [if_neg (by simp only [beq_iff_eq]; omega)]
          simp only [decide_eq_true_eq]
          omega

/-- C3 (counterexample): the author-key regex captures only `"Smith"` (group 1
stops before the comma), and the first-word fallback captures only `"Great"`,
so the sort keys are `"smith"` and `"great"`, not `"smith, j"` and
`"great gatsby"`. -/
theorem C3_counterexample :
    apa_sort_key (strOf (r"The Great Gatsby (2020).")) = strOf (r"great") ∧
    strOf (r"great") ≠ strOf (r"great gatsby") ∧
    apa_sort_key (strOf (r"Smith, J. (2020).")) = strOf (r"smith") ∧
    strOf (r"smith") ≠ strOf (r"smith, j") := by
  decide

/-- C3 (amended): `"The Great Gatsby (2020)."` sorts under key `"great"` and
`"Smith, J. (2020)."` under `"smith"` (the leading article is stripped, but
only the first word, or the pre-comma author surname, enters the key); the
final ordering is a stable ascending sort on this key: the output is a
permutation of the input, pairwise ordered by the key, and entries with equal
keys keep their input order. -/
theorem C3_sort_key_and_stability :
    (apa_sort_key (strOf (r"The Great Gatsby (2020).")) = strOf (r"great") ∧
     apa_sort_key (strOf (r"Smith, J. (2020).")) = strOf (r"smith")) ∧
    (∀ l : List (List Nat), List.Perm (sortRefs l) l) ∧
    (∀ l : List (List Nat),
      (sortRefs l).Pairwise (fun a b => lexLE (apa_sort_key a) (apa_sort_key b) = true)) ∧
    (∀ (l : List (List Nat)) (a b : List Nat), apa_sort_key a = apa_sort_key b →
      List.Sublist [a, b] l → List.Sublist [a, b] (sortRefs l)) := by
  have htrans : ∀ (a b c : List Nat),
      lexLE (apa_sort_key a) (apa_sort_key b) = true →
      lexLE (apa_sort_key b) (apa_sort_key c) = true →
      lexLE (apa_sort_key a) (apa_sort_key c) = true :=
    fun a b c h1 h2 => lexLE_trans _ _ _ h1 h2
  have htotal : ∀ (a b : List Nat),
      (lexLE (apa_sort_key a) (apa_sort_key b) || lexLE (apa_sort_key b) (apa_sort_key a)) = true :=
    fun a b => lexLE_total _ _
  refine ⟨⟨by decide, by decide⟩, ?_, ?_, ?_⟩
  · intro l
    exact List.mergeSort_perm l _
  · intro l
    exact List.sorted_mergeSort htrans htotal l
  · intro l a b hk hsub
    refine List.sublist_mergeSort htrans htotal ?_ hsub
    refine List.pairwise_pair.mpr ?_
    rw [hk]
    exact lexLE_refl _

/-- Witness for C3: two entries with the equal key `"smith"` keep their input
order through the sort. -/
theorem C3_sort_key_and_stability_witness :
    apa_sort_key (strOf (r"Smith, J. (2020). Sleep.")) =
      apa_sort_key (strOf (r"Smith, A. (2019). Work.")) ∧
    List.Sublist [strOf (r"Smith, J. (2020). Sleep."), strOf (r"Smith, A. (2019). Work.")]
      (sortRefs [strOf (r"Smith, J. (2020). Sleep."), strOf (r"Smith, A. (2019). Work.")]) := by
  constructor
  · decide
  · exact (C3_sort_key_and_stability).2.2.2 _ _ _ (by decide) (List.Sublist.refl _)

/-- C4 (amended): when no date anchor is present — neither in the pre-cleaned
input (so the author step is skipped) nor after URL removal and page-range
dash normalization (so the title/italics step is skipped) — the parser
returns the input transformed only by URL removal, en-dash substitution and
the final whitespace cleanup, with an empty italics list and the extracted
URL.  The parser is total, so no such reference is dropped. -/
theorem C4_unparseable_fallback (ref : List Nat)
    (h1 : searchDateCore (preClean ref) = none)
    (h2 : searchDateCore (endashSub (stripUrlStep (preClean ref)).1) = none) :
    format_apa_reference_with_formatting_and_url ref =
      (cleanup (endashSub (stripUrlStep (preClean ref)).1), [],
        (stripUrlStep (preClean ref)).2) := by
  simp only [format_apa_reference_with_formatting_and_url, refCore, authorStep,
    titleItalicsStep, h1, h2]

/-- Witness for C4: a reference with no date anchor is returned URL-stripped,
en-dashed and cleaned, with empty italics. -/
theorem C4_unparseable_fallback_witness :
    format_apa_reference_with_formatting_and_url (strOf (r"Notes, 45-60. https://x.org/a")) =
      (strOf (r"Notes, 45–60."), [], some (strOf (r"https://x.org/a"))) := by
  have h := C4_unparseable_fallback (strOf (r"Notes, 45-60. https://x.org/a"))
    (by decide) (by decide)
  rw [h]
  decide

/-- C4 (counterexample): the claim says a date-anchor-free reference comes
back unmodified except for URL removal; but the en-dash substitution still
applies, so `"Notes, 45-60."` (no URL, no date anchor) is altered. -/
theorem C4_counterexample :
    searchDateCore (preClean (strOf (r"Notes, 45-60."))) = none ∧
    (format_apa_reference_with_formatting_and_url (strOf (r"Notes, 45-60."))).2.2 = none ∧
    (format_apa_reference_with_formatting_and_url (strOf (r"Notes, 45-60."))).1 =
      strOf (r"Notes, 45–60.") ∧
    (format_apa_reference_with_formatting_and_url (strOf (r"Notes, 45-60."))).1 ≠
      strOf (r"Notes, 45-60.") := by
  decide

/-- A prefix test succeeding bounds the needle's length. -/
theorem startsWithL_length : ∀ (nd l : List Nat), startsWithL nd l = true → nd.length ≤ l.length := by
  intro nd
  induction nd with
  | nil => intro l _; simp
  | cons a as ih =>
    intro l h
    cases l with
    | nil => simp [startsWithL] at h
    | cons b bs =>
      simp only [startsWithL, Bool.and_eq_true] at h
      have := ih bs h.2
      simp only [List.length_cons]
      omega

/-- A found occurrence fits inside the haystack. -/
theorem findSubPos_bound : ∀ (l : List Nat) (nd : List Nat) (p : Nat),
    findSubPos nd l = some p → p + nd.length ≤ l.length := by
  intro l
  induction l with
  | nil =>
    intro nd p h
    rw [findSubPos] at h
    by_cases hnd : nd.isEmpty
    · rw [if_pos hnd] at h
      cases h
      simp [List.isEmpty_iff.mp hnd]
    · rw [if_neg hnd] at h
      cases h
  | cons c t ih =>
    intro nd p h
    rw [findSubPos] at h
    by_cases hs : startsWithL nd (c :: t)
    · rw [if_pos hs] at h
      cases h
      simpa using startsWithL_length nd (c :: t) hs
    · rw [if_neg hs] at h
      simp only [Option.map_eq_some'] at h
      obtain ⟨q, hq, rfl⟩ := h
      have := ih nd q hq
      simp only [List.length_cons]
      omega

/-- `str.index(sub, start)` returns a position at or past `start` whose match
fits inside the string, for a non-empty needle. -/
theorem indexOfFrom_bound (s nd : List Nat) (st a : Nat) (hnd : nd ≠ [])
    (h : indexOfFrom s nd st = some a) : st ≤ a ∧ a + nd.length ≤ s.length := by
  simp only [indexOfFrom, Option.map_eq_some'] at h
  obtain ⟨q, hq, rfl⟩ := h
  have hb := findSubPos_bound _ nd q hq
  rw [List.length_drop] at hb
  have hnd1 : 1 ≤ nd.length := by
    cases nd with
    | nil => exact absurd rfl hnd
    | cons x xs => simp
  omega

/-- Stripping never lengthens a string. -/
theorem strip_length_le (l : List Nat) : (strip l).length ≤ l.length := by
  have h1 := (List.dropWhile_sublist (l := l) (p := isWsB)).length_le
  have h2 := (List.dropWhile_sublist (l := (l.dropWhile isWsB).reverse) (p := isWsB)).length_le
  simp only [strip, stripL, stripR, List.length_reverse] at *
  omega

/-- Everything in the stripped string came from the original. -/
theorem strip_sublist (l : List Nat) : (strip l).Sublist l := by
  have h1 : (stripL l).Sublist l := List.dropWhile_sublist _
  have h2 : (stripR (stripL l)).Sublist (stripL l) := by
    have := List.dropWhile_sublist (l := (stripL l).reverse) (p := isWsB)
    have hr := this.reverse
    simpa [stripR] using hr
  exact h2.trans h1

/-- An all-whitespace result: if stripping empties the string, every
character was whitespace. -/
theorem strip_eq_nil_imp (l : List Nat) (h : strip l = []) : ∀ c ∈ l, isWsB c = true := by
  intro c hc
  simp only [strip, stripR, stripL] at h
  have h2 : ((l.dropWhile isWsB).reverse.dropWhile isWsB) = [] := by
    have := congrArg List.reverse h
    simpa using this
  rw [List.dropWhile_eq_nil_iff] at h2
  have hdw : ∀ d ∈ l.dropWhile isWsB, isWsB d = true := by
    intro d hd
    exact h2 d (by simpa using hd)
  have hsplit : c ∈ l.takeWhile isWsB ++ l.dropWhile isWsB := by
    rw [List.takeWhile_append_dropWhile]
    exact hc
  rcases List.mem_append.mp hsplit with hm | hm
  · exact List.mem_takeWhile_imp hm
  · exact hdw c hm

/-- A string containing a non-whitespace character does not strip to empty. -/
theorem strip_ne_nil (l : List Nat) (c : Nat) (hc : c ∈ l) (h : isWsB c = false) :
    strip l ≠ [] := by
  intro hx
  have := strip_eq_nil_imp l hx c hc
  rw [this] at h
  cases h

/-- The scan for the date-anchor core stays inside the string. -/
theorem searchDateCoreGo_bound : ∀ (l : List Nat) (i p n : Nat),
    searchDateCoreGo i l = some (p, n) → i ≤ p ∧ (p - i) + n ≤ l.length := by
  intro l
  induction l with
  | nil => intro i p n h; simp [searchDateCoreGo] at h
  | cons c t ih =>
    intro i p n h
    rw [searchDateCoreGo] at h
    cases hm : matchDateCore (c :: t) with
    | some rem =>
      rw [hm] at h
      cases h
      refine ⟨Nat.le_refl _, ?_⟩
      simp only [Nat.sub_self]
      omega
    | none =>
      rw [hm] at h
      obtain ⟨h1, h2⟩ := ih (i + 1) p n h
      constructor
      · omega
      · simp only [List.length_cons]
        omega

/-- The date-anchor match fits inside the string. -/
theorem searchDateCore_bound (l : List Nat) (p n : Nat)
    (h : searchDateCore l = some (p, n)) : p + n ≤ l.length := by
  have := searchDateCoreGo_bound l 0 p n h
  omega

/-- Length of a first-occurrence replacement when the needle occurs. -/
theorem replaceFirst_length (s nd sc : List Nat) (p : Nat) (hnd : nd ≠ [])
    (h : findSubPos nd s = some p) :
    (replaceFirst s nd sc).length = s.length - nd.length + sc.length := by
  have hb := findSubPos_bound s nd p h
  rw [replaceFirst, if_neg hnd, h]
  simp only [List.length_append, List.length_take, List.length_drop]
  omega

/-- Shape facts of the title-segment match: group 1 is non-empty and a period
follows it inside the text. -/
theorem titleSegMatch_bound (tay g1 g2 : List Nat)
    (h : titleSegMatch tay = some (g1, g2)) : g1 ≠ [] ∧ g1.length + 1 ≤ tay.length := by
  rw [titleSegMatch] at h
  by_cases he : (tay.takeWhile (fun c => c != 46)).isEmpty
  · rw [if_pos he] at h
    cases h
  · rw [if_neg he] at h
    split at h
    · rename_i rest heq
      cases h
      refine ⟨by simpa [List.isEmpty_iff] using he, ?_⟩
      have hlen := congrArg List.length heq
      rw [List.length_drop] at hlen
      simp only [List.length_cons] at hlen
      have htl := (List.takeWhile_sublist (l := tay) (fun c => c != 46)).length_le
      omega
    · cases h

/-- `splitWsF` of the empty string, any fuel. -/
theorem splitWsF_nil (fuel : Nat) : splitWsF fuel [] = [] := by
  cases fuel <;> rfl

/-- Joining the split words never exceeds the input length (the separators
stand in for dropped whitespace). -/
theorem splitWsF_join_length : ∀ (fuel : Nat) (l : List Nat),
    (joinSpace (splitWsF fuel l)).length ≤ l.length := by
  intro fuel
  induction fuel using Nat.strong_induction_on with
  | _ fuel ih =>
    intro l
    match fuel, l with
    | 0, l => simp [splitWsF, joinSpace, List.intercalate]
    | f + 1, [] => simp [splitWsF, joinSpace, List.intercalate]
    | f + 1, c :: t =>
      rw [splitWsF]
      by_cases hc : isWsB c
      · rw [if_pos hc]
        have := ih f (by omega) t
        simp only [List.length_cons]
        omega
      · rw [if_neg hc]
        have hsplit : t.takeWhile (fun d => !isWsB d) ++ t.dropWhile (fun d => !isWsB d) = t :=
          List.takeWhile_append_dropWhile _ _
        have hlen : (t.takeWhile (fun d => !isWsB d)).length
            + (t.dropWhile (fun d => !isWsB d)).length = t.length := by
          have hx := congrArg List.length hsplit
          rw [List.length_append] at hx
          exact hx
        cases hdr : splitWsF f (t.dropWhile (fun d => !isWsB d)) with
        | nil =>
          rw [joinSpace_single]
          simp only [List.length_cons]
          omega
        | cons w ws =>
          rw [joinSpace_cons_cons]
          have hne : t.dropWhile (fun d => !isWsB d) ≠ [] := by
            intro hx
            rw [hx, splitWsF_nil] at hdr
            cases hdr
          obtain ⟨d, dr', hdd⟩ := List.exists_cons_of_ne_nil hne
          have hdws : isWsB d = true := by
            have := List.head_dropWhile_not (fun d => !isWsB d) t
            rw [hdd] at this
            simpa using this
          cases f with
          | zero => rw [splitWsF] at hdr; cases hdr
          | succ g =>
            rw [hdd, splitWsF, if_pos hdws] at hdr
            have hrec := ih g (by omega) dr'
            rw [hdr] at hrec
            have hdl : (t.dropWhile (fun d => !isWsB d)).length = dr'.length + 1 := by
              rw [hdd]; simp
            simp only [List.length_append, List.length_cons]
            omega

/-- `capitalize` preserves length. -/
theorem capitalizeW_length (w : List Nat) : (capitalizeW w).length = w.length := by
  cases w <;> simp [capitalizeW]

/-- The per-word smart casing preserves length. -/
theorem titleSmartWord_length (w : List Nat) : (titleSmartWord w).length = w.length := by
  rw [titleSmartWord]
  split
  · rfl
  · split
    · rfl
    · simp [lowerAll]

/-- `joinSpace` length only depends on the words' lengths. -/
theorem joinSpace_length_congr : ∀ (ws1 ws2 : List (List Nat)),
    List.Forall₂ (fun a b => a.length = b.length) ws1 ws2 →
    (joinSpace ws1).length = (joinSpace ws2).length := by
  intro ws1
  induction ws1 with
  | nil =>
    intro ws2 h
    cases h
    rfl
  | cons a as ih =>
    intro ws2 h
    cases h with
    | cons hab htail =>
      rename_i b bs
      cases as with
      | nil =>
        cases htail
        rw [joinSpace_single, joinSpace_single]
        exact hab
      | cons a2 as2 =>
        cases htail with
        | cons hab2 htail2 =>
          rename_i b2 bs2
          rw [joinSpace_cons_cons, joinSpace_cons_cons]
          have := ih (b2 :: bs2) (List.Forall₂.cons hab2 htail2)
          simp only [List.length_append, List.length_cons]
          omega

/-- The processed title words match the original words in length. -/
theorem titleRestLoop_forall2 (rest : List (List Nat)) :
    List.Forall₂ (fun a b => a.length = b.length) (titleRestLoop rest) rest := by
  induction rest with
  | nil => exact List.Forall₂.nil
  | cons w ws ih =>
    rw [titleRestLoop]
    exact List.Forall₂.cons (titleSmartWord_length w) ih

/-- Smart sentence casing never lengthens the title text. -/
theorem titleWordsProcess_length_le (x : List Nat) :
    (titleWordsProcess x).length ≤ x.length := by
  rw [titleWordsProcess]
  cases hs : splitWs x with
  | nil => exact Nat.le_refl _
  | cons w rest =>
    have hjl : (joinSpace (capitalizeW w :: titleRestLoop rest)).length
        = (joinSpace (w :: rest)).length :=
      joinSpace_length_congr _ _ (List.Forall₂.cons (capitalizeW_length w) (titleRestLoop_forall2 rest))
    have hxs : (joinSpace (splitWs x)).length ≤ x.length := splitWsF_join_length _ x
    rw [hs] at hxs
    show (joinSpace (capitalizeW w :: titleRestLoop rest)).length ≤ x.length
    omega

/-- A list is a prefix of itself followed by anything. -/
theorem startsWithL_append_self : ∀ (nd u : List Nat), startsWithL nd (nd ++ u) = true := by
  intro nd
  induction nd with
  | nil => intro u; rfl
  | cons a as ih =>
    intro u
    simp only [List.cons_append, startsWithL, Bool.and_eq_true]
    exact ⟨by simp, ih u⟩

/-- A contiguous occurrence is found by the scan. -/
theorem findSubPos_isSome_of_infix : ∀ (t nd u : List Nat),
    (findSubPos nd (t ++ nd ++ u)).isSome = true := by
  intro t
  induction t with
  | nil =>
    intro nd u
    cases hnd : nd ++ u with
    | nil =>
      have hn0 : nd = [] := by
        cases nd with
        | nil => rfl
        | cons x xs => simp at hnd
      have hu0 : u = [] := by
        rw [hn0] at hnd
        simpa using hnd
      subst hn0
      subst hu0
      simp [findSubPos]
    | cons c cs =>
      rw [List.nil_append, hnd, findSubPos]
      rw [← hnd, if_pos (startsWithL_append_self nd u)]
      rfl
  | cons c t' ih =>
    intro nd u
    rw [List.cons_append, List.cons_append, findSubPos]
    by_cases hs : startsWithL nd (c :: (t' ++ nd ++ u))
    · rw [if_pos hs]
      rfl
    · rw [if_neg hs]
      have := ih nd u
      cases hfp : findSubPos nd (t' ++ nd ++ u) with
      | none => rw [hfp] at this; cases this
      | some q => simp [hfp]

/-- The greedy volume backtracking returns a prefix of its input of length at
most the starting digit count. -/
theorem jcTryVolGo_spec : ∀ (n : Nat) (s1 v : List Nat), jcTryVolGo s1 n = some v →
    ∃ k, k + 1 ≤ n ∧ v = s1.take (k + 1) := by
  intro n
  induction n with
  | zero => intro s1 v h; cases h
  | succ n ih =>
    intro s1 v h
    rw [jcTryVolGo] at h
    by_cases hc : jcAfterVol (s1.drop (n + 1))
    · rw [if_pos hc] at h
      cases h
      exact ⟨n, Nat.le_refl _, rfl⟩
    · rw [if_neg hc] at h
      obtain ⟨k, hk, hv⟩ := ih s1 v h
      exact ⟨k, by omega, hv⟩

/-- The volume group is a non-empty run of digits. -/
theorem jcNum_spec (s v : List Nat) (h : jcNum s = some v) :
    v ≠ [] ∧ ∀ c ∈ v, isDigitB c = true := by
  rw [jcNum] at h
  by_cases he : ((s.dropWhile isWsB).takeWhile isDigitB).isEmpty
  · rw [if_pos he] at h
    cases h
  · rw [if_neg he] at h
    obtain ⟨k, hk, hv⟩ := jcTryVolGo_spec _ _ _ h
    obtain ⟨u, hu⟩ := (List.takeWhile_prefix (l := s.dropWhile isWsB) (p := isDigitB))
    have htake : (s.dropWhile isWsB).take (k + 1)
        = ((s.dropWhile isWsB).takeWhile isDigitB).take (k + 1) := by
      conv_lhs => rw [← hu]
      rw [List.take_append_of_le_length hk]
    have hds1 : 1 ≤ ((s.dropWhile isWsB).takeWhile isDigitB).length := by
      cases hq : (s.dropWhile isWsB).takeWhile isDigitB with
      | nil => rw [hq] at he; simp at he
      | cons x xs => simp [hq]
    constructor
    · rw [hv]
      intro hx
      have hlx := congrArg List.length hx
      rw [List.length_take] at hlx
      simp only [List.length_nil] at hlx
      have := (List.takeWhile_sublist (l := s.dropWhile isWsB) (p := isDigitB)).length_le
      omega
    · intro c hc
      rw [hv, htake] at hc
      have := (List.take_sublist _ _).mem hc
      exact List.mem_takeWhile_imp this

/-- The volume returned after the optional comma is a non-empty digit run. -/
theorem journalAfterG1_spec (s v : List Nat) (h : journalAfterG1 s = some v) :
    v ≠ [] ∧ ∀ c ∈ v, isDigitB c = true := by
  rw [journalAfterG1.eq_def] at h
  split at h
  · rename_i t
    cases hn : jcNum t with
    | some w =>
      rw [hn] at h
      simp only [Option.some_orElse] at h
      cases h
      exact jcNum_spec _ _ hn
    | none =>
      rw [hn] at h
      simp only [Option.none_orElse] at h
      exact jcNum_spec _ _ h
  · exact jcNum_spec _ _ h

/-- Facts about the lazily matched journal-title group and its volume. -/
theorem journalG1Go_spec : ∀ (l pre : List Nat) (g v : List Nat),
    (∃ a ∈ pre, isWsB a = false) → journalG1Go pre l = some (g, v) →
    (g ≠ [] ∧ ∃ a ∈ g, isWsB a = false) ∧ v ≠ [] ∧ ∀ c ∈ v, isDigitB c = true := by
  intro l
  induction l with
  | nil => intro pre g v _ h; cases h
  | cons c t ih =>
    intro pre g v hpre h
    rw [journalG1Go] at h
    by_cases hc : c == 44 || c == 40
    · rw [if_pos hc] at h
      cases h
    · rw [if_neg hc] at h
      cases ha : journalAfterG1 t with
      | some vol =>
        rw [ha] at h
        cases h
        obtain ⟨a, ham, haw⟩ := hpre
        refine ⟨⟨by simp, a, ?_, haw⟩, journalAfterG1_spec _ _ ha⟩
        simp only [List.mem_reverse]
        exact List.mem_cons_of_mem c ham
      | none =>
        rw [ha] at h
        obtain ⟨a, ham, haw⟩ := hpre
        exact ih (c :: pre) g v ⟨a, List.mem_cons_of_mem c ham, haw⟩ h

/-- An ASCII uppercase letter is not whitespace. -/
theorem isWsB_false_of_upper (c : Nat) (h : isUpperB c = true) : isWsB c = false := by
  simp only [isUpperB, Bool.and_eq_true, decide_eq_true_eq] at h
  rw [← Bool.not_eq_true, isWsB_iff]
  omega

/-- The journal match yields a non-all-whitespace title group and a non-empty
digit volume. -/
theorem journalMatch_spec (s g v : List Nat) (h : journalMatch s = some (g, v)) :
    (g ≠ [] ∧ ∃ a ∈ g, isWsB a = false) ∧ v ≠ [] ∧ ∀ c ∈ v, isDigitB c = true := by
  rw [journalMatch] at h
  split at h
  · rename_i c t heq
    by_cases hc : isUpperB c
    · rw [if_pos hc] at h
      exact journalG1Go_spec t [c] g v ⟨c, by simp, isWsB_false_of_upper c hc⟩ h
    · rw [if_neg hc] at h
      cases h
  · cases h

/-- The lazy book-title group never exceeds the scanned text. -/
theorem bookG1Go_length : ∀ (l pre g : List Nat), bookG1Go pre l = some g →
    g.length ≤ pre.length + l.length := by
  intro l
  induction l with
  | nil => intro pre g h; cases h
  | cons c t ih =>
    intro pre g h
    rw [bookG1Go] at h
    by_cases h10 : c == 10
    · rw [if_pos h10] at h
      cases h
    · rw [if_neg h10] at h
      by_cases hbt : bookTailMatch t
      · rw [if_pos hbt] at h
        cases h
        simp only [List.length_reverse, List.length_cons]
        omega
      · rw [if_neg hbt] at h
        have := ih (c :: pre) g h
        simp only [List.length_cons] at *
        omega

/-- The matched book-title group fits inside the sentence-cased title. -/
theorem bookEditionMatch_length (s g : List Nat) (h : bookEditionMatch s = some g) :
    g.length ≤ s.length := by
  rw [bookEditionMatch.eq_def] at h
  split at h
  · cases h
  · rename_i c t
    by_cases h10 : c == 10
    · rw [if_pos h10] at h
      cases h
    · rw [if_neg h10] at h
      by_cases hbt : bookTailMatch t
      · rw [if_pos hbt] at h
        cases h
        simp
      · rw [if_neg hbt] at h
        have := bookG1Go_length t [c] g h
        simp only [List.length_cons, List.length_nil] at *
        omega

theorem titleSegMatch_g1 (tay g1 g2 : List Nat)
    (h : titleSegMatch tay = some (g1, g2)) : g1 = tay.takeWhile (fun c => c != 46) := by
  rw [titleSegMatch] at h
  split at h
  · cases h
  · split at h
    · exact ((Prod.mk.injEq _ _ _ _).mp (Option.some.inj h)).1.symm
    · cases h

theorem isWsB_false_of_digit (c : Nat) (h : isDigitB c = true) : isWsB c = false := by
  simp only [isDigitB, Bool.and_eq_true, decide_eq_true_eq] at h
  rw [← Bool.not_eq_true, isWsB_iff]
  omega

theorem strip_infix (l : List Nat) : (strip l).IsInfix l := by
  have h1 : (stripL l).IsSuffix l := List.dropWhile_suffix _
  have h2 : (stripR (stripL l)).IsPrefix (stripL l) := by
    have hx : ((stripL l).reverse.dropWhile isWsB).IsSuffix (stripL l).reverse :=
      List.dropWhile_suffix _
    have h4 := List.reverse_prefix.mpr hx
    rw [List.reverse_reverse] at h4
    exact h4
  exact h2.isInfix.trans h1.isInfix

theorem titleItalicsStep_spec (r : List Nat) :
    ((titleItalicsStep r).2).Chain' (fun p q => p.2 ≤ q.1) ∧
    ∀ p ∈ (titleItalicsStep r).2, p.1 < p.2 ∧ p.2 ≤ (titleItalicsStep r).1.length := by
  cases hsd : searchDateCore r with
  | none =>
    rw [titleItalicsStep.eq_def, hsd]
    simp
  | some pc =>
    obtain ⟨p, n⟩ := pc
    rw [titleItalicsStep.eq_def, hsd]
    simp only
    set cs := p + n + ((r.drop (p + n)).takeWhile isWsB).length with hcs
    have hpn : p + n ≤ r.length := searchDateCore_bound r p n hsd
    have hcsle : cs ≤ r.length := by
      have := (List.takeWhile_sublist (l := r.drop (p + n)) (p := isWsB)).length_le
      rw [List.length_drop] at this
      omega
    cases hts : titleSegMatch (r.drop cs) with
    | none => simp
    | some g =>
      obtain ⟨g1, g2⟩ := g
      simp only
      obtain ⟨hg1ne, hg1len⟩ := titleSegMatch_bound _ _ _ hts
      rw [List.length_drop] at hg1len
      set extracted := strip g1 with hex
      set scTitle := titleWordsProcess extracted with hsc
      set ref2 := replaceFirst r extracted scTitle with href2
      have hscle : scTitle.length ≤ extracted.length := titleWordsProcess_length_le extracted
      have hexle : extracted.length ≤ g1.length := strip_length_le g1
      have hinfix : extracted.IsInfix r := by
        have h1 : extracted.IsInfix g1 := strip_infix g1
        have h2 : g1.IsPrefix (r.drop cs) := by
          rw [titleSegMatch_g1 _ _ _ hts]
          exact List.takeWhile_prefix _
        have h3 : (r.drop cs).IsSuffix r := List.drop_suffix _ _
        exact h1.trans (h2.isInfix.trans h3.isInfix)
      have href2len : extracted ≠ [] →
          ref2.length = r.length - extracted.length + scTitle.length := by
        intro hne
        obtain ⟨s, t, hst⟩ := hinfix
        have hss : (findSubPos extracted r).isSome = true := by
          rw [← hst] at *
          rw [hst]
          exact findSubPos_isSome_of_infix s extracted t
        obtain ⟨q, hq⟩ := Option.isSome_iff_exists.mp hss
        exact replaceFirst_length r extracted scTitle q hne hq
      cases hj : journalMatch (strip g2) with
      | some jv =>
        obtain ⟨jt, jvd⟩ := jv
        simp only
        obtain ⟨⟨hjt_ne, a0, ha0m, ha0w⟩, hv_ne, hv_dig⟩ := journalMatch_spec _ _ _ hj
        set jts := strip jt with hjts
        set jvs := strip jvd with hjvs
        have hjts_ne : jts ≠ [] := strip_ne_nil jt a0 ha0m ha0w
        have hjvs_ne : jvs ≠ [] := by
          obtain ⟨d, hd⟩ := List.exists_mem_of_ne_nil jvd hv_ne
          exact strip_ne_nil jvd d hd (isWsB_false_of_digit d (hv_dig d hd))
        cases hia : indexOfFrom ref2 jts (cs + scTitle.length) with
        | none => simp
        | some a =>
          simp only
          obtain ⟨hale, haub⟩ := indexOfFrom_bound ref2 jts _ a hjts_ne hia
          cases hib : indexOfFrom ref2 jvs (a + jts.length) with
          | none =>
            simp only [List.chain'_singleton, List.mem_singleton, true_and]
            intro q hq
            subst hq
            refine ⟨?_, haub⟩
            have := List.length_pos.mpr hjts_ne
            omega
          | some b =>
            simp only
            obtain ⟨hble, hbub⟩ := indexOfFrom_bound ref2 jvs _ b hjvs_ne hib
            constructor
            · exact List.chain'_pair.mpr hble
            · intro q hq
              simp only [List.mem_cons, List.mem_singleton] at hq
              have hjl := List.length_pos.mpr hjts_ne
              have hvl := List.length_pos.mpr hjvs_ne
              rcases hq with rfl | rfl | hq
              · exact ⟨by omega, haub⟩
              · exact ⟨by omega, hbub⟩
              · cases hq
      | none =>
        simp only
        cases hbe : bookEditionMatch scTitle with
        | some gg =>
          simp only
          have htle : (strip gg).length ≤ scTitle.length :=
            le_trans (strip_length_le gg) (bookEditionMatch_length _ _ hbe)
          by_cases hg : cs < cs + (strip gg).length
          · rw [if_pos hg]
            refine ⟨List.chain'_singleton _, ?_⟩
            intro q hq
            simp only [List.mem_singleton] at hq
            subst hq
            refine ⟨hg, ?_⟩
            have hexne : extracted ≠ [] := by
              intro hx
              rw [hx] at hscle
              simp only [List.length_nil, Nat.le_zero] at hscle
              omega
            have hlen := href2len hexne
            simp only
            rw [hlen]
            omega
          · rw [if_neg hg]
            simp
        | none =>
          simp only
          by_cases hg : cs < cs + scTitle.length
          · rw [if_pos hg]
            refine ⟨List.chain'_singleton _, ?_⟩
            intro q hq
            simp only [List.mem_singleton] at hq
            subst hq
            refine ⟨hg, ?_⟩
            have hexne : extracted ≠ [] := by
              intro hx
              rw [hx] at hscle
              simp only [List.length_nil, Nat.le_zero] at hscle
              omega
            have hlen := href2len hexne
            simp only
            rw [hlen]
            omega
          · rw [if_neg hg]
            simp


def c5in : List Nat := strOf (r"A. (2020). Title here.                    Journal, 5(3), 4-5.")

/-- C5: for every input citation, the italic spans returned by the reference
parser are pairwise non-overlapping and sorted ascending (each span ends no
later than the next begins), and each span is well-formed (`start < end`);
but the bound `end ≤ length` holds for the string *before* the final
whitespace/punctuation cleanup (`refCore`), not for the final formatted text:
the parser returns the cleaned string together with spans computed on the
pre-cleanup string, and the cleanup can shrink the text below a span's end. -/
theorem C5_spans_wellformed (ref : List Nat) :
    format_apa_reference_with_formatting_and_url ref =
      (cleanup (refCore ref).1, (refCore ref).2.1, (refCore ref).2.2) ∧
    ((refCore ref).2.1).Chain' (fun p q => p.2 ≤ q.1) ∧
    ∀ p ∈ (refCore ref).2.1, p.1 < p.2 ∧ p.2 ≤ (refCore ref).1.length := by
  refine ⟨rfl, ?_, ?_⟩
  · exact (titleItalicsStep_spec (endashSub (stripUrlStep (authorStep (preClean ref))).1)).1
  · exact (titleItalicsStep_spec (endashSub (stripUrlStep (authorStep (preClean ref))).1)).2

/-- C5 (counterexample): on `"A. (2020). Title here."` followed by twenty
spaces and `"Journal, 5(3), 4-5."`, the parser returns a formatted text of
length 41 (the cleanup collapses the space run), yet the first italic span is
`(41, 48)` — it starts at the end of the returned string and its end exceeds
the string's bounds, refuting the claim that every span satisfies
`end ≤ length of the returned formatted text`. -/
theorem C5_counterexample :
    (format_apa_reference_with_formatting_and_url c5in).2.1 = [(41, 48), (50, 51)] ∧
    (format_apa_reference_with_formatting_and_url c5in).1.length = 41 ∧
    ¬(((format_apa_reference_with_formatting_and_url c5in).2.1.headD (0, 0)).2 ≤
        (format_apa_reference_with_formatting_and_url c5in).1.length) := by
  refine ⟨by decide, by decide, by decide⟩
